import Mathlib

/-!
Verification development for the RSDatasetGenerator tile pipeline.

This file gives a shallow embedding, in Lean 4, of the core of the
repository: the in-memory LRU tile cache (src/downloaders/base.py,
class TileCache), the per-tile download routine with retry and backoff
(src/downloaders/sync_downloader.py and async_downloader.py), the tile
window computation (BaseDownloader.calculate_tiles_for_point), the
mosaic assembler (src/processors/image_processor.py, class TileMerger
and class ImageProcessor), and the pipeline orchestrator
(src/processors/data_processor.py, class DataProcessor).

Machine floats of the Python source are modelled by real numbers for
the geodesy formulas and by rationals for durations; network, disk and
random draws are passed in as explicit oracles, so every code path of
the source becomes a total Lean function of its inputs.
-/

namespace RS

/-! ## Association-list helpers

Python dicts (insertion ordered, unique keys) are modelled by
association lists; Python list.remove by removeFirst. -/

/-- Lookup of a key in an association list: first entry wins, which
agrees with a Python dict because a dict holds each key once. -/
def lookupKey {κ α : Type} [DecidableEq κ] : List (κ × α) → κ → Option α
  | [], _ => none
  | e :: t, k => if e.1 = k then some e.2 else lookupKey t k

/-- Test whether an association list holds a key, as the Python
expression key in dict. -/
def containsKey {κ α : Type} [DecidableEq κ] (l : List (κ × α)) (k : κ) : Bool :=
  (lookupKey l k).isSome

/-- Remove the entry of a key from an association list, keeping the
order of the others, as del dict[key]. -/
def eraseKey {κ α : Type} [DecidableEq κ] : List (κ × α) → κ → List (κ × α)
  | [], _ => []
  | e :: t, k => if e.1 = k then t else e :: eraseKey t k

/-- Overwrite the value stored for a key in place, as dict[key] = v on
a present key (the position of the entry is kept). -/
def updateVal {κ α : Type} [DecidableEq κ] (l : List (κ × α)) (k : κ) (v : α) : List (κ × α) :=
  l.map (fun e => if e.1 = k then (k, v) else e)

/-- Remove the first occurrence of an element from a list, as Python
list.remove. -/
def removeFirst {κ : Type} [DecidableEq κ] : List κ → κ → List κ
  | [], _ => []
  | a :: t, k => if a = k then t else a :: removeFirst t k

theorem lookupKey_append {κ α : Type} [DecidableEq κ] (l₁ l₂ : List (κ × α)) (k : κ) :
    lookupKey (l₁ ++ l₂) k =
      match lookupKey l₁ k with
      | some v => some v
      | none => lookupKey l₂ k := by
  induction l₁ with
  | nil => simp [lookupKey]
  | cons e t ih =>
    by_cases h : e.1 = k <;> simp [lookupKey, h, ih]

theorem containsKey_append {κ α : Type} [DecidableEq κ] (l₁ l₂ : List (κ × α)) (k : κ) :
    containsKey (l₁ ++ l₂) k = (containsKey l₁ k || containsKey l₂ k) := by
  rw [containsKey, lookupKey_append]
  cases h : lookupKey l₁ k <;> simp [containsKey, h]

theorem map_fst_eraseKey {κ α : Type} [DecidableEq κ] (l : List (κ × α)) (k : κ) :
    (eraseKey l k).map Prod.fst = removeFirst (l.map Prod.fst) k := by
  induction l with
  | nil => simp [eraseKey, removeFirst]
  | cons e t ih =>
    by_cases h : e.1 = k <;> simp [eraseKey, removeFirst, h, ih]

theorem updateVal_nil {κ α : Type} [DecidableEq κ] (k : κ) (v : α) :
    updateVal ([] : List (κ × α)) k v = [] :=
  rfl

theorem updateVal_cons {κ α : Type} [DecidableEq κ] (e : κ × α) (t : List (κ × α))
    (k : κ) (v : α) :
    updateVal (e :: t) k v = (if e.1 = k then (k, v) else e) :: updateVal t k v :=
  rfl

theorem map_fst_updateVal {κ α : Type} [DecidableEq κ] (l : List (κ × α)) (k : κ) (v : α) :
    (updateVal l k v).map Prod.fst = l.map Prod.fst := by
  induction l with
  | nil => rfl
  | cons e t ih =>
    rw [updateVal_cons]
    by_cases h : e.1 = k <;> simp [h, ih]

theorem length_updateVal {κ α : Type} [DecidableEq κ] (l : List (κ × α)) (k : κ) (v : α) :
    (updateVal l k v).length = l.length := by
  simp [updateVal]

theorem lookupKey_updateVal_self {κ α : Type} [DecidableEq κ] (l : List (κ × α)) (k : κ) (v : α)
    (h : containsKey l k = true) : lookupKey (updateVal l k v) k = some v := by
  induction l with
  | nil => simp [containsKey, lookupKey] at h
  | cons e t ih =>
    rw [updateVal_cons]
    by_cases he : e.1 = k
    · simp [lookupKey, he]
    · have ht : containsKey t k = true := by
        simpa [containsKey, lookupKey, he] using h
      simpa [lookupKey, he] using ih ht

theorem lookupKey_updateVal_ne {κ α : Type} [DecidableEq κ] (l : List (κ × α)) (k k2 : κ) (v : α)
    (h : k2 ≠ k) : lookupKey (updateVal l k v) k2 = lookupKey l k2 := by
  induction l with
  | nil => rfl
  | cons e t ih =>
    rw [updateVal_cons]
    by_cases he : e.1 = k
    · have hk2 : k ≠ k2 := fun hk => h hk.symm
      simp [lookupKey, he, h, hk2, ih]
    · by_cases he2 : e.1 = k2 <;> simp [lookupKey, he, he2, h, ih]

theorem filter_updateVal {κ α : Type} [DecidableEq κ] (l : List (κ × α)) (k : κ) (v : α) :
    (updateVal l k v).filter (fun e => e.1 ≠ k) = l.filter (fun e => e.1 ≠ k) := by
  induction l with
  | nil => rfl
  | cons e t ih =>
    rw [updateVal_cons]
    simp only [ne_eq, decide_not] at ih ⊢
    by_cases he : e.1 = k
    · simpa [List.filter_cons, he] using ih
    · simp [List.filter_cons, he, ih]

theorem mem_removeFirst_of_nodup {κ : Type} [DecidableEq κ] (l : List κ) (k a : κ)
    (hnd : l.Nodup) : a ∈ removeFirst l k ↔ a ∈ l ∧ a ≠ k := by
  induction l with
  | nil => simp [removeFirst]
  | cons b t ih =>
    have hb : b ∉ t := (List.nodup_cons.mp hnd).1
    have ht : t.Nodup := (List.nodup_cons.mp hnd).2
    by_cases hbk : b = k
    · subst hbk
      simp only [removeFirst, if_pos rfl]
      constructor
      · intro ha
        exact ⟨List.mem_cons_of_mem _ ha, fun hak => hb (hak ▸ ha)⟩
      · rintro ⟨ha, hak⟩
        rcases List.mem_cons.mp ha with h | h
        · exact absurd h hak
        · exact h
    · simp only [removeFirst, if_neg hbk, List.mem_cons, ih ht]
      constructor
      · rintro (h | ⟨h1, h2⟩)
        · exact ⟨Or.inl h, h ▸ hbk⟩
        · exact ⟨Or.inr h1, h2⟩
      · rintro ⟨h | h, hak⟩
        · exact Or.inl h
        · exact Or.inr ⟨h, hak⟩

theorem nodup_removeFirst {κ : Type} [DecidableEq κ] (l : List κ) (k : κ)
    (hnd : l.Nodup) : (removeFirst l k).Nodup := by
  induction l with
  | nil => simp [removeFirst]
  | cons b t ih =>
    have hb : b ∉ t := (List.nodup_cons.mp hnd).1
    have ht : t.Nodup := (List.nodup_cons.mp hnd).2
    by_cases hbk : b = k
    · simpa [removeFirst, hbk] using ht
    · have hstep : removeFirst (b :: t) k = b :: removeFirst t k := by
        simp [removeFirst, hbk]
      rw [hstep]
      refine List.nodup_cons.mpr ⟨?_, ih ht⟩
      intro hmem
      exact hb ((mem_removeFirst_of_nodup t k b ht).mp hmem).1

theorem length_removeFirst_of_mem {κ : Type} [DecidableEq κ] (l : List κ) (k : κ)
    (h : k ∈ l) : (removeFirst l k).length + 1 = l.length := by
  induction l with
  | nil => simp at h
  | cons b t ih =>
    by_cases hbk : b = k
    · simp [removeFirst, hbk]
    · have : k ∈ t := by
        rcases List.mem_cons.mp h with h1 | h1
        · exact absurd h1.symm hbk
        · exact h1
      simp [removeFirst, hbk, ih this]

theorem removeFirst_cons_self {κ : Type} [DecidableEq κ] (t : List κ) (k : κ) :
    removeFirst (k :: t) k = t := by
  simp [removeFirst]

theorem removeFirst_append_not_mem {κ : Type} [DecidableEq κ] (l₁ l₂ : List κ) (k : κ)
    (h : k ∉ l₁) : removeFirst (l₁ ++ l₂) k = l₁ ++ removeFirst l₂ k := by
  induction l₁ with
  | nil => simp
  | cons b t ih =>
    have hbk : b ≠ k := fun hb => h (hb ▸ List.mem_cons_self b t)
    have ht : k ∉ t := fun hm => h (List.mem_cons_of_mem _ hm)
    simp [removeFirst, hbk, ih ht]

/-! ## Tile cache (src/downloaders/base.py, class TileCache)

The Python class keeps a dict named _cache from (x, y, z) keys to
images and a list named _access_order of keys from least to most
recently used.
The image type is abstract here (the cache logic never inspects it). -/

/-- Key of a tile in the cache: the tuple (x, y, z) of TileInfo.key. -/
abbrev TileKey := ℤ × ℤ × ℤ

/-- State of TileCache: max_size, the dict _cache and the list
_access_order. -/
structure TileCache (α : Type) where
  maxSize : ℕ
  cache : List (TileKey × α) := []
  accessOrder : List TileKey := []

/-- TileCache.__init__(max_size): empty dict, empty access list. -/
def emptyCache (α : Type) (maxSize : ℕ) : TileCache α :=
  { maxSize := maxSize }

/-- TileCache.get: on a hit move the key to the most-recently-used end
of _access_order and return the image; on a miss return None and leave
the state unchanged. -/
def TileCache.get {α : Type} (c : TileCache α) (k : TileKey) : Option α × TileCache α :=
  match lookupKey c.cache k with
  | some v => (some v, { c with accessOrder := removeFirst c.accessOrder k ++ [k] })
  | none => (none, c)

/-- TileCache.put: an existing key is overwritten and promoted; a new
key first evicts the head of _access_order when the dict is full, then
is appended. In the branch where the dict is full but _access_order is
empty the Python code raises IndexError from pop(0); that state is not
reachable from a well-formed cache with maxSize at least 1, and the
model returns the state unchanged there. -/
def TileCache.put {α : Type} (c : TileCache α) (k : TileKey) (v : α) : TileCache α :=
  if containsKey c.cache k then
    { c with
      cache := updateVal c.cache k v
      accessOrder := removeFirst c.accessOrder k ++ [k] }
  else if c.maxSize ≤ c.cache.length then
    match c.accessOrder with
    | [] => c
    | oldest :: rest =>
      { c with
        cache := eraseKey c.cache oldest ++ [(k, v)]
        accessOrder := rest ++ [k] }
  else
    { c with cache := c.cache ++ [(k, v)], accessOrder := c.accessOrder ++ [k] }

/-- TileCache.size: number of cached entries. -/
def TileCache.size {α : Type} (c : TileCache α) : ℕ :=
  c.cache.length

/-- TileCache.clear: drop the dict and the access list. -/
def TileCache.clear {α : Type} (c : TileCache α) : TileCache α :=
  { c with cache := [], accessOrder := [] }

/-- Sequence of puts, one per key of the list, with values given by a
function. -/
def putAll {α : Type} (c : TileCache α) (ks : List TileKey) (vs : TileKey → α) : TileCache α :=
  ks.foldl (fun st k => st.put k (vs k)) c

/-- States reachable from a fresh TileCache of a given max_size by any
sequence of get and put calls. -/
inductive CacheReachable (α : Type) (maxSize : ℕ) : TileCache α → Prop
  | base : CacheReachable α maxSize (emptyCache α maxSize)
  | getStep (c : TileCache α) (k : TileKey) :
      CacheReachable α maxSize c → CacheReachable α maxSize (c.get k).2
  | putStep (c : TileCache α) (k : TileKey) (v : α) :
      CacheReachable α maxSize c → CacheReachable α maxSize (c.put k v)

/-- Well-formedness of a TileCache state: no duplicate keys in the
dict, no duplicates in _access_order, the two hold the same keys, the
access list is as long as the dict, and the dict never exceeds
max_size. -/
def CacheWF {α : Type} (c : TileCache α) : Prop :=
  (c.cache.map Prod.fst).Nodup ∧
  c.accessOrder.Nodup ∧
  (∀ k, k ∈ c.accessOrder ↔ containsKey c.cache k = true) ∧
  c.accessOrder.length = c.cache.length ∧
  c.cache.length ≤ c.maxSize

theorem containsKey_iff_mem_map_fst {κ α : Type} [DecidableEq κ] (l : List (κ × α)) (k : κ) :
    containsKey l k = true ↔ k ∈ l.map Prod.fst := by
  induction l with
  | nil => simp [containsKey, lookupKey]
  | cons e t ih =>
    by_cases he : e.1 = k
    · simp [containsKey, lookupKey, he]
    · have hne : ¬ (k = e.1) := fun hk => he hk.symm
      simp [containsKey, lookupKey, he, hne] at ih ⊢
      exact ih

theorem containsKey_eraseKey_of_nodup {κ α : Type} [DecidableEq κ] (l : List (κ × α)) (k k2 : κ)
    (hnd : (l.map Prod.fst).Nodup) :
    containsKey (eraseKey l k) k2 = true ↔ containsKey l k2 = true ∧ k2 ≠ k := by
  rw [containsKey_iff_mem_map_fst, containsKey_iff_mem_map_fst, map_fst_eraseKey]
  exact mem_removeFirst_of_nodup (l.map Prod.fst) k k2 hnd

theorem length_eraseKey_of_mem {κ α : Type} [DecidableEq κ] (l : List (κ × α)) (k : κ)
    (h : containsKey l k = true) : (eraseKey l k).length + 1 = l.length := by
  have h1 : k ∈ l.map Prod.fst := (containsKey_iff_mem_map_fst l k).mp h
  have h2 := length_removeFirst_of_mem (l.map Prod.fst) k h1
  rw [← map_fst_eraseKey] at h2
  simpa using h2

/-- TileCache.get on a hit or a miss preserves well-formedness, the
stored entries and the size. -/
theorem cacheWF_get {α : Type} (c : TileCache α) (k : TileKey) (hwf : CacheWF c) :
    CacheWF (c.get k).2 ∧ (c.get k).2.cache = c.cache ∧ (c.get k).2.maxSize = c.maxSize := by
  obtain ⟨hnd, hao, hiff, hlen, hsz⟩ := hwf
  rw [TileCache.get]
  cases hlk : lookupKey c.cache k with
  | none => exact ⟨⟨hnd, hao, hiff, hlen, hsz⟩, rfl, rfl⟩
  | some v =>
    have hk : k ∈ c.accessOrder := (hiff k).mpr (by simp [containsKey, hlk])
    have hrl := length_removeFirst_of_mem c.accessOrder k hk
    refine ⟨⟨hnd, ?_, ?_, ?_, hsz⟩, rfl, rfl⟩
    · refine List.Nodup.append (nodup_removeFirst _ _ hao) (List.nodup_singleton k) ?_
      intro a ha hb
      have := (mem_removeFirst_of_nodup c.accessOrder k a hao).mp ha
      simp at hb
      exact this.2 hb
    · intro k2
      by_cases hk2 : k2 = k
      · simp [hk2, (hiff k).mp hk]
      · simp only [List.mem_append, List.mem_singleton, hk2, or_false]
        rw [mem_removeFirst_of_nodup c.accessOrder k k2 hao]
        simp [hk2, hiff k2]
    · simpa using by omega

/-- TileCache.put preserves well-formedness and never grows the dict
beyond max_size, provided max_size is at least 1. -/
theorem cacheWF_put {α : Type} (c : TileCache α) (k : TileKey) (v : α)
    (hmax : 1 ≤ c.maxSize) (hwf : CacheWF c) :
    CacheWF (c.put k v) ∧ (c.put k v).maxSize = c.maxSize := by
  obtain ⟨hnd, hao, hiff, hlen, hsz⟩ := hwf
  rw [TileCache.put]
  by_cases hc : containsKey c.cache k = true
  · rw [if_pos hc]
    have hk : k ∈ c.accessOrder := (hiff k).mpr hc
    have hrl := length_removeFirst_of_mem c.accessOrder k hk
    refine ⟨⟨?_, ?_, ?_, ?_, ?_⟩, rfl⟩
    · simpa [map_fst_updateVal] using hnd
    · refine List.Nodup.append (nodup_removeFirst _ _ hao) (List.nodup_singleton k) ?_
      intro a ha hb
      have := (mem_removeFirst_of_nodup c.accessOrder k a hao).mp ha
      simp at hb
      exact this.2 hb
    · intro k2
      by_cases hk2 : k2 = k
      · simp [hk2, containsKey, lookupKey_updateVal_self c.cache k v hc]
      · simp only [List.mem_append, List.mem_singleton, hk2, or_false]
        rw [mem_removeFirst_of_nodup c.accessOrder k k2 hao]
        simp [hk2, containsKey, lookupKey_updateVal_ne c.cache k k2 v hk2, hiff k2]
    · simp [length_updateVal]
      omega
    · simpa [length_updateVal] using hsz
  · rw [if_neg hc]
    have hknotin : k ∉ c.accessOrder := fun hmem => hc ((hiff k).mp hmem)
    by_cases hfull : c.maxSize ≤ c.cache.length
    · rw [if_pos hfull]
      have hone : 1 ≤ c.accessOrder.length := by omega
      cases hord : c.accessOrder with
      | nil => simp [hord] at hone
      | cons oldest rest =>
        have holdmem : oldest ∈ c.accessOrder := by simp [hord]
        have hocont : containsKey c.cache oldest = true := (hiff oldest).mp holdmem
        have herase := length_eraseKey_of_mem c.cache oldest hocont
        have hrest_nd : rest.Nodup := by
          rw [hord] at hao
          exact (List.nodup_cons.mp hao).2
        have hold_rest : oldest ∉ rest := by
          rw [hord] at hao
          exact (List.nodup_cons.mp hao).1
        have hknotrest : k ∉ rest := fun hm => hknotin (by simp [hord, hm])
        have hkne : k ≠ oldest := fun hk => hknotin (by simp [hord, hk])
        have hmem_erase : ∀ a, a ∈ (eraseKey c.cache oldest).map Prod.fst ↔
            a ∈ c.cache.map Prod.fst ∧ a ≠ oldest := by
          intro a
          rw [map_fst_eraseKey]
          exact mem_removeFirst_of_nodup _ _ _ hnd
        have hlen2 : rest.length + 1 = c.cache.length := by
          rw [← hlen, hord]
          simp
        refine ⟨⟨?_, ?_, ?_, ?_, ?_⟩, rfl⟩
        · rw [List.map_append]
          refine List.Nodup.append ?_ (by simp) ?_
          · rw [map_fst_eraseKey]
            exact nodup_removeFirst _ _ hnd
          · intro a ha hb
            simp at hb
            subst hb
            have := (hmem_erase a).mp ha
            exact hc ((containsKey_iff_mem_map_fst c.cache a).mpr this.1)
        · refine List.Nodup.append hrest_nd (by simp) ?_
          intro a ha hb
          simp at hb
          subst hb
          exact hknotrest ha
        · intro k2
          rw [containsKey_append]
          by_cases hk2 : k2 = k
          · simp [hk2, containsKey, lookupKey]
          · have h1 : k2 ∈ rest ↔ containsKey (eraseKey c.cache oldest) k2 = true := by
              rw [containsKey_eraseKey_of_nodup c.cache oldest k2 hnd]
              constructor
              · intro hm
                refine ⟨(hiff k2).mp (by simp [hord, hm]), ?_⟩
                intro h2
                exact hold_rest (h2 ▸ hm)
              · rintro ⟨hck, hne⟩
                have := (hiff k2).mpr hck
                rw [hord] at this
                rcases List.mem_cons.mp this with h | h
                · exact absurd h hne
                · exact h
            simp only [List.mem_append, List.mem_singleton, hk2, or_false]
            rw [h1]
            simp [hk2, containsKey, lookupKey]
            exact fun h2 => absurd h2.symm hk2
        · simp
          omega
        · simp
          omega
    · rw [if_neg hfull]
      refine ⟨⟨?_, ?_, ?_, ?_, ?_⟩, rfl⟩
      · rw [List.map_append]
        refine List.Nodup.append hnd (by simp) ?_
        intro a ha hb
        simp at hb
        subst hb
        exact hc ((containsKey_iff_mem_map_fst c.cache a).mpr ha)
      · refine List.Nodup.append hao (by simp) ?_
        intro a ha hb
        simp at hb
        subst hb
        exact hknotin ha
      · intro k2
        rw [containsKey_append]
        by_cases hk2 : k2 = k
        · simp [hk2, containsKey, lookupKey]
        · simp only [List.mem_append, List.mem_singleton, hk2, or_false]
          simp [hk2, containsKey, lookupKey, hiff k2]
          exact fun h2 => absurd h2.symm hk2
      · simp
        omega
      · simp
        omega

/-- Reachable cache states are well-formed and keep their max_size. -/
theorem cacheReachable_wf {α : Type} (maxSize : ℕ) (hmax : 1 ≤ maxSize)
    (c : TileCache α) (h : CacheReachable α maxSize c) :
    CacheWF c ∧ c.maxSize = maxSize := by
  induction h with
  | base =>
    refine ⟨⟨by simp [emptyCache], by simp [emptyCache], ?_, by simp [emptyCache], by simp [emptyCache]⟩, rfl⟩
    intro k
    simp [emptyCache, containsKey, lookupKey]
  | getStep c k hc ih =>
    obtain ⟨hwf, hms⟩ := ih
    exact ⟨(cacheWF_get c k hwf).1, by rw [(cacheWF_get c k hwf).2.2, hms]⟩
  | putStep c k v hc ih =>
    obtain ⟨hwf, hms⟩ := ih
    have h1 := cacheWF_put c k v (by omega) hwf
    exact ⟨h1.1, by rw [h1.2, hms]⟩

/-- A put of a fresh key into a cache that is not yet full simply
appends the entry and the key. -/
theorem put_fresh_notfull {α : Type} (c : TileCache α) (k : TileKey) (v : α)
    (hfresh : containsKey c.cache k = false) (hroom : c.cache.length < c.maxSize) :
    c.put k v =
      { c with cache := c.cache ++ [(k, v)], accessOrder := c.accessOrder ++ [k] } := by
  rw [TileCache.put]
  rw [if_neg (by simp [hfresh]), if_neg (by omega)]

/-- Folding puts of pairwise-distinct fresh keys into a cache with
enough room appends all the entries in order. -/
theorem putAll_fresh {α : Type} (ks : List TileKey) (c : TileCache α) (vs : TileKey → α)
    (hnd : ks.Nodup) (hfresh : ∀ k ∈ ks, containsKey c.cache k = false)
    (hroom : c.cache.length + ks.length ≤ c.maxSize) :
    putAll c ks vs =
      { c with
        cache := c.cache ++ ks.map (fun k => (k, vs k))
        accessOrder := c.accessOrder ++ ks } := by
  induction ks generalizing c with
  | nil => simp [putAll]
  | cons k0 t ih =>
    have h0 : containsKey c.cache k0 = false := hfresh k0 (List.mem_cons_self k0 t)
    have hlen : c.cache.length < c.maxSize := by
      have := hroom
      simp at this
      omega
    have hstep := put_fresh_notfull c k0 (vs k0) h0 hlen
    have hput : putAll c (k0 :: t) vs = putAll (c.put k0 (vs k0)) t vs := by
      simp [putAll]
    rw [hput, hstep]
    have htnd : t.Nodup := (List.nodup_cons.mp hnd).2
    have hk0t : k0 ∉ t := (List.nodup_cons.mp hnd).1
    have hfresh2 : ∀ k ∈ t, containsKey (c.cache ++ [(k0, vs k0)]) k = false := by
      intro k hk
      rw [containsKey_append]
      have h1 : containsKey c.cache k = false := hfresh k (List.mem_cons_of_mem _ hk)
      have h2 : containsKey [(k0, vs k0)] k = false := by
        have : k0 ≠ k := fun he => hk0t (he ▸ hk)
        simp [containsKey, lookupKey, this]
      simp [h1, h2]
    have hroom2 : (c.cache ++ [(k0, vs k0)]).length + t.length ≤ c.maxSize := by
      simp at hroom ⊢
      omega
    have hrec := ih { c with
        cache := c.cache ++ [(k0, vs k0)]
        accessOrder := c.accessOrder ++ [k0] } htnd hfresh2 hroom2
    rw [hrec]
    simp

/-! ## Downloader (src/downloaders/base.py, sync_downloader.py,
async_downloader.py)

The sync and the async downloader share the structure of
download_tile verified here: check the cache, then validate the
coordinates, then attempt the network fetch up to max_retries + 1
times with exponential backoff plus a random jitter between failed
attempts. One network attempt (the body of _download_with_retry) is an
oracle returning either the decoded image with its byte size or a
classified error; random draws are oracles as well. -/

/-- TileInfo of base.py: coordinates plus the generated url and file
path. -/
structure TileInfo where
  x : ℤ
  y : ℤ
  z : ℤ
  url : String
  file_path : String
deriving DecidableEq

/-- TileInfo.key: the (x, y, z) tuple. -/
def TileInfo.key (t : TileInfo) : TileKey :=
  (t.x, t.y, t.z)

/-- Classified download errors. The first group mirrors the messages
raised by _download_with_retry; invalidCoordinate and
retriesExhausted mirror the two failure messages built directly in
download_tile. -/
inductive DlError
  | timeout
  | connectionError
  | notFound
  | rateLimited
  | serverError (code : ℕ)
  | httpError (code : ℕ)
  | notImageContent
  | emptyBody
  | decodeFailed
  | unknownError
  | invalidCoordinate
  | retriesExhausted (n : ℕ)
deriving DecidableEq

/-- DownloadResult of base.py. download_time is wall-clock seconds in
the source; the model does not track real time and leaves it zero. -/
structure DownloadResult (α : Type) where
  tile_info : TileInfo
  success : Bool
  image : Option α := none
  error : Option DlError := none
  download_time : ℚ := 0
  file_size : ℕ := 0
  from_cache : Bool := false

/-- Download parameters from config.download used by download_tile. -/
structure DlConfig where
  maxRetries : ℕ
  backoffBase : ℚ
  retryWaitLo : ℚ
  retryWaitHi : ℚ
  intervalLo : ℚ
  intervalHi : ℚ

/-- Mutable context of one downloader: the in-memory TileCache and the
on-disk tile store (a map from keys to stored images; decoding of a
stored file always succeeds in the model). -/
structure FetchState (α : Type) where
  cache : TileCache α
  disk : List (TileKey × α)

/-- Events recorded while one download_tile call runs: how many
network attempts were issued, the sleeps between failed attempts
(backoff plus jitter), and the random inter-request delays taken at
the start of retry attempts. -/
structure DlTrace where
  networkAttempts : ℕ
  waits : List ℚ
  interDelays : List ℚ
deriving DecidableEq

/-- BaseDownloader.load_cached_tile: first the in-memory cache, then
the on-disk store; a disk hit populates the in-memory cache. -/
def load_cached_tile {α : Type} (s : FetchState α) (t : TileInfo) :
    Option α × FetchState α :=
  match s.cache.get t.key with
  | (some img, c2) => (some img, { s with cache := c2 })
  | (none, c2) =>
    match lookupKey s.disk t.key with
    | some img => (some img, { s with cache := c2.put t.key img })
    | none => (none, { s with cache := c2 })

/-- BaseDownloader.save_tile: write the image to the on-disk store and
insert it into the in-memory cache. -/
def save_tile {α : Type} (s : FetchState α) (t : TileInfo) (img : α) : FetchState α :=
  { cache := s.cache.put t.key img
    disk :=
      if containsKey s.disk t.key then updateVal s.disk t.key img
      else s.disk ++ [(t.key, img)] }

/-- BaseDownloader.validate_tile_coordinates: zoom within 0..20 and
both tile indices within 0 ≤ i < 2 ^ z. -/
def validate_tile_coordinates (x y z : ℤ) : Bool :=
  if z < 0 ∨ z > 20 then false
  else
    let maxCoord : ℤ := 2 ^ z.toNat
    decide (0 ≤ x ∧ x < maxCoord ∧ 0 ≤ y ∧ y < maxCoord)

/-- The retry loop of download_tile. The loop counter attempt runs
from 0; remaining counts the iterations left of the Python
range(max_retries + 1), so the loop is entered with remaining =
maxRetries + 1. One attempt is the oracle attemptResult; on failure,
while attempt < maxRetries, the code sleeps
backoffBase ^ attempt + jitter attempt and retries; when the loop
ends every attempt has failed and the generic failure result is
returned (the last error is only logged, not returned). A retry
attempt (attempt > 0) starts with a random inter-request delay,
recorded in interDelays. -/
def download_retry_loop {α : Type} (cfg : DlConfig) (t : TileInfo)
    (attemptResult : ℕ → Except DlError (α × ℕ)) (jitter : ℕ → ℚ) (inter : ℕ → ℚ)
    (s : FetchState α) : ℕ → ℕ → DownloadResult α × FetchState α × DlTrace
  | _, 0 =>
    ({ tile_info := t
       success := false
       error := some (DlError.retriesExhausted cfg.maxRetries) }, s,
     { networkAttempts := 0, waits := [], interDelays := [] })
  | attempt, remaining + 1 =>
    let thisInter : List ℚ := if 0 < attempt then [inter attempt] else []
    match attemptResult attempt with
    | Except.ok (img, sz) =>
      ({ tile_info := t
         success := true
         image := some img
         file_size := sz }, save_tile s t img,
       { networkAttempts := 1, waits := [], interDelays := thisInter })
    | Except.error _ =>
      if attempt < cfg.maxRetries then
        let w := cfg.backoffBase ^ attempt + jitter attempt
        let rest := download_retry_loop cfg t attemptResult jitter inter s (attempt + 1) remaining
        (rest.1, rest.2.1,
         { networkAttempts := rest.2.2.networkAttempts + 1
           waits := w :: rest.2.2.waits
           interDelays := thisInter ++ rest.2.2.interDelays })
      else
        ({ tile_info := t
           success := false
           error := some (DlError.retriesExhausted cfg.maxRetries) }, s,
         { networkAttempts := 1, waits := [], interDelays := thisInter })

/-- SyncDownloader.download_tile (the async variant
download_tile_async has the same structure): check the cache first; on
a miss validate the coordinates and return an immediate failure when
they are invalid; otherwise run the retry loop. -/
def download_tile {α : Type} (cfg : DlConfig) (t : TileInfo) (s : FetchState α)
    (attemptResult : ℕ → Except DlError (α × ℕ)) (jitter : ℕ → ℚ) (inter : ℕ → ℚ) :
    DownloadResult α × FetchState α × DlTrace :=
  match load_cached_tile s t with
  | (some img, s1) =>
    ({ tile_info := t
       success := true
       image := some img
       download_time := 0
       from_cache := true }, s1,
     { networkAttempts := 0, waits := [], interDelays := [] })
  | (none, s1) =>
    if validate_tile_coordinates t.x t.y t.z = false then
      ({ tile_info := t
         success := false
         error := some DlError.invalidCoordinate }, s1,
       { networkAttempts := 0, waits := [], interDelays := [] })
    else
      download_retry_loop cfg t attemptResult jitter inter s1 0 (cfg.maxRetries + 1)

/-- SyncDownloader.download_tiles: one download_tile per tile, in
order, threading the cache and disk state; every result is appended
and the loop continues after failures. -/
def download_tiles {α : Type} (cfg : DlConfig) (tiles : List TileInfo) (s : FetchState α)
    (attemptResult : TileInfo → ℕ → Except DlError (α × ℕ))
    (jitter : TileInfo → ℕ → ℚ) (inter : TileInfo → ℕ → ℚ) :
    List (DownloadResult α) × FetchState α :=
  tiles.foldl
    (fun acc t =>
      let r := download_tile cfg t acc.2 (attemptResult t) (jitter t) (inter t)
      (acc.1 ++ [r.1], r.2.1))
    ([], s)

/-- Whether an Except value is an error. -/
def exceptFailed {ε γ : Type} : Except ε γ → Bool
  | Except.error _ => true
  | Except.ok _ => false

theorem download_retry_loop_tile_info {α : Type} (cfg : DlConfig) (t : TileInfo)
    (attemptResult : ℕ → Except DlError (α × ℕ)) (jitter inter : ℕ → ℚ)
    (s : FetchState α) (attempt remaining : ℕ) :
    (download_retry_loop cfg t attemptResult jitter inter s attempt remaining).1.tile_info = t ∧
    ((download_retry_loop cfg t attemptResult jitter inter s attempt remaining).1.success = true ∨
      (download_retry_loop cfg t attemptResult jitter inter s attempt remaining).1.error.isSome = true) := by
  induction remaining generalizing attempt with
  | zero => simp [download_retry_loop]
  | succ n ih =>
    rw [download_retry_loop]
    cases attemptResult attempt with
    | ok p => simp
    | error e =>
      by_cases hlt : attempt < cfg.maxRetries
      · simpa [hlt] using ih (attempt + 1)
      · simp [hlt]

theorem download_retry_loop_attempts_le {α : Type} (cfg : DlConfig) (t : TileInfo)
    (attemptResult : ℕ → Except DlError (α × ℕ)) (jitter inter : ℕ → ℚ)
    (s : FetchState α) (attempt remaining : ℕ) :
    (download_retry_loop cfg t attemptResult jitter inter s attempt remaining).2.2.networkAttempts ≤
      remaining := by
  induction remaining generalizing attempt with
  | zero => simp [download_retry_loop]
  | succ n ih =>
    rw [download_retry_loop]
    cases attemptResult attempt with
    | ok p => simp
    | error e =>
      by_cases hlt : attempt < cfg.maxRetries
      · have := ih (attempt + 1)
        simp only [hlt, if_pos]
        omega
      · simp [hlt]

/-- When every attempt of the window fails, the retry loop issues one
network attempt per iteration, sleeps the backoff formula between
them, and ends in the generic retries-exhausted failure. -/
theorem download_retry_loop_all_fail {α : Type} (cfg : DlConfig) (t : TileInfo)
    (attemptResult : ℕ → Except DlError (α × ℕ)) (jitter inter : ℕ → ℚ)
    (s : FetchState α) (attempt remaining : ℕ)
    (hwin : attempt + remaining = cfg.maxRetries + 1)
    (hfail : ∀ i, i ≤ cfg.maxRetries → exceptFailed (attemptResult i) = true) :
    (download_retry_loop cfg t attemptResult jitter inter s attempt remaining).1.success = false ∧
    (download_retry_loop cfg t attemptResult jitter inter s attempt remaining).1.error =
      some (DlError.retriesExhausted cfg.maxRetries) ∧
    (download_retry_loop cfg t attemptResult jitter inter s attempt remaining).2.2.networkAttempts =
      remaining ∧
    (download_retry_loop cfg t attemptResult jitter inter s attempt remaining).2.2.waits =
      (List.range (remaining - 1)).map (fun j => cfg.backoffBase ^ (attempt + j) + jitter (attempt + j)) := by
  induction remaining generalizing attempt with
  | zero => simp [download_retry_loop]
  | succ n ih =>
    have hatt : attempt ≤ cfg.maxRetries := by omega
    have hf := hfail attempt hatt
    rw [download_retry_loop]
    cases hres : attemptResult attempt with
    | ok p => rw [hres] at hf; simp [exceptFailed] at hf
    | error e =>
      by_cases hlt : attempt < cfg.maxRetries
      · have hn : 1 ≤ n := by omega
        have hrec := ih (attempt + 1) (by omega)
        simp only [hlt, if_pos]
        refine ⟨hrec.1, hrec.2.1, by rw [hrec.2.2.1], ?_⟩
        rw [hrec.2.2.2]
        have hshape : n + 1 - 1 = (n - 1) + 1 := by omega
        rw [hshape, List.range_succ_eq_map]
        simp [Function.comp]
        intro j hj
        have harith : attempt + 1 + j = attempt + (j + 1) := by omega
        rw [harith]
      · have hend : attempt = cfg.maxRetries := by omega
        have hn0 : n = 0 := by omega
        simp [hlt, hn0]

/-- The shape of every download_tile result: it reports the requested
tile and is either a success or carries an error value. -/
theorem download_tile_shape {α : Type} (cfg : DlConfig) (t : TileInfo) (s : FetchState α)
    (attemptResult : ℕ → Except DlError (α × ℕ)) (jitter inter : ℕ → ℚ) :
    (download_tile cfg t s attemptResult jitter inter).1.tile_info = t ∧
    ((download_tile cfg t s attemptResult jitter inter).1.success = true ∨
      (download_tile cfg t s attemptResult jitter inter).1.error.isSome = true) := by
  rw [download_tile]
  cases hload : load_cached_tile s t with
  | mk first s1 =>
    cases first with
    | some img => simp
    | none =>
      by_cases hval : validate_tile_coordinates t.x t.y t.z = false
      · simp [hval]
      · simp only [hval, if_neg, Bool.false_eq_true, not_false_eq_true, if_false]
        exact download_retry_loop_tile_info cfg t attemptResult jitter inter s1 0 (cfg.maxRetries + 1)

/-! ## Raster images and the tile merger
(src/processors/image_processor.py, class TileMerger)

A raster image is its pixel dimensions together with a pixel function;
PIL paste writes the pasted block into the target (clipped at the
target borders) and keeps the target size. The placeholder drawn by
_fill_missing_tile is a 256 by 256 gray tile with a MISSING marker;
since the font rendering of the marker has no arithmetic content, the
merger is parameterized by the placeholder image. -/

/-- RGB color. -/
abbrev Color := ℕ × ℕ × ℕ

/-- A raster image: dimensions and pixel contents. -/
structure Image where
  width : ℕ
  height : ℕ
  pix : ℕ → ℕ → Color

/-- PIL Image.new: constant image of the given size. -/
def Image.new (w h : ℕ) (c : Color) : Image :=
  { width := w, height := h, pix := fun _ _ => c }

/-- PIL Image.paste at offset (x, y): pixels inside the pasted block
and inside the target take the tile value, everything else is
unchanged, and the target dimensions are kept. -/
def Image.paste (base tile : Image) (x y : ℕ) : Image :=
  { base with
    pix := fun px py =>
      if x ≤ px ∧ px < x + tile.width ∧ y ≤ py ∧ py < y + tile.height ∧
          px < base.width ∧ py < base.height
      then tile.pix (px - x) (py - y)
      else base.pix px py }

/-- PIL Image.resize to a target size (the exact resampling kernel is
irrelevant to the claims; the model uses nearest-neighbor sampling). -/
def Image.resizeTo (img : Image) (w h : ℕ) : Image :=
  { width := w, height := h
    pix := fun px py => img.pix (px * img.width / w) (py * img.height / h) }

/-- Tile size of the provider, fixed to 256 in TileMerger.__init__. -/
def tileSize : ℕ := 256

/-- The size normalization inside merge_tiles: a tile that is not
256 by 256 is resized to 256 by 256 before pasting. -/
def normalizeTile (img : Image) : Image :=
  if img.width = tileSize ∧ img.height = tileSize then img
  else img.resizeTo tileSize tileSize

/-- The tile position dict of merge_tiles: iterate over the download
results and map (x, y) to the image of each successful result that
carries an image; a later entry for the same key overwrites an
earlier one, as in a Python dict. -/
def buildTileMap (results : List (DownloadResult Image)) : ℤ × ℤ → Option Image :=
  results.foldl
    (fun m r =>
      if r.success && r.image.isSome then
        fun k => if k = (r.tile_info.x, r.tile_info.y) then r.image else m k
      else m)
    (fun _ => none)

/-- Grid cells of the merge loop, outer loop over grid_y, inner loop
over grid_x. -/
def mergeCells (gridSize : ℕ) : List (ℕ × ℕ) :=
  (List.range gridSize).flatMap (fun gy => (List.range gridSize).map (fun gx => (gx, gy)))

/-- One iteration of the merge loop: look the absolute tile coordinate
up in the dict; paste the (size-normalized) tile image when present,
else paste the placeholder tile built by _fill_missing_tile. -/
def pasteCell (tileMap : ℤ × ℤ → Option Image) (placeholder : Image) (startX startY : ℤ)
    (canvas : Image) (cell : ℕ × ℕ) : Image :=
  match tileMap (startX + cell.1, startY + cell.2) with
  | some timg => canvas.paste (normalizeTile timg) (cell.1 * tileSize) (cell.2 * tileSize)
  | none => canvas.paste placeholder (cell.1 * tileSize) (cell.2 * tileSize)

/-- The merge loop run over a given tile dict: start from the black
canvas of grid_size * 256 pixels per side and paste every cell. -/
def mergeWithMap (tileMap : ℤ × ℤ → Option Image) (placeholder : Image) (gridSize : ℕ)
    (center : TileInfo) : Image :=
  let startX : ℤ := center.x - (gridSize / 2 : ℕ)
  let startY : ℤ := center.y - (gridSize / 2 : ℕ)
  (mergeCells gridSize).foldl (pasteCell tileMap placeholder startX startY)
    (Image.new (gridSize * tileSize) (gridSize * tileSize) (0, 0, 0))

/-- TileMerger.merge_tiles. -/
def merge_tiles (placeholder : Image) (results : List (DownloadResult Image))
    (gridSize : ℕ) (center : TileInfo) : Image :=
  mergeWithMap (buildTileMap results) placeholder gridSize center

/-- The flat gray base of the placeholder tile of _fill_missing_tile
(color 128, 128, 128); used as a concrete placeholder in witnesses. -/
def grayTile : Image :=
  Image.new tileSize tileSize (128, 128, 128)

/-! ## Geodesy (ImageProcessor and mercantile)

The float formulas of _geo_to_tile, _geo_to_tile_float and
_tile_to_geo are modelled over the real numbers. -/

/-- ImageProcessor._geo_to_tile_float: the Web Mercator forward
projection without flooring. -/
noncomputable def geo_to_tile_float (lon lat : ℝ) (zoom : ℤ) : ℝ × ℝ :=
  let latRad := lat * Real.pi / 180
  let n : ℝ := (2 : ℝ) ^ zoom
  ((lon + 180) / 360 * n,
   (1 - Real.arsinh (Real.tan latRad) / Real.pi) / 2 * n)

/-- Python int(): truncation toward zero. -/
noncomputable def intTrunc (x : ℝ) : ℤ :=
  if 0 ≤ x then ⌊x⌋ else ⌈x⌉

/-- ImageProcessor._geo_to_tile: the same formula passed through
int(). -/
noncomputable def geo_to_tile (lon lat : ℝ) (zoom : ℤ) : ℤ × ℤ :=
  (intTrunc (geo_to_tile_float lon lat zoom).1, intTrunc (geo_to_tile_float lon lat zoom).2)

/-- ImageProcessor._tile_to_geo: the inverse projection. -/
noncomputable def tile_to_geo (x y : ℤ) (zoom : ℤ) : ℝ × ℝ :=
  let n : ℝ := (2 : ℝ) ^ zoom
  ((x : ℝ) / n * 360 - 180,
   Real.arctan (Real.sinh (Real.pi * (1 - 2 * (y : ℝ) / n))) * 180 / Real.pi)

/-- A geographic point as loaded from the vector file
(src/processors/data_loader.py, class GeoPoint); the attribute map is
irrelevant to the verified claims. -/
structure GeoPoint where
  longitude : ℝ
  latitude : ℝ
  index : ℕ

/-- ImageProcessor._geo_to_pixel, step by step as in the source:
fractional tile coordinates of the point, top-left tile of the grid,
relative position, and finally the multiplication by 256. -/
noncomputable def geo_to_pixel (point : GeoPoint) (center : TileInfo) (gridSize : ℕ) : ℝ × ℝ :=
  let pointTile := geo_to_tile_float point.longitude point.latitude center.z
  let halfGrid : ℕ := gridSize / 2
  let startTileX : ℤ := center.x - halfGrid
  let startTileY : ℤ := center.y - halfGrid
  let relativeTileX : ℝ := pointTile.1 - (startTileX : ℝ)
  let relativeTileY : ℝ := pointTile.2 - (startTileY : ℝ)
  (relativeTileX * 256, relativeTileY * 256)

/-! ## Tile window computation
(src/downloaders/base.py, BaseDownloader.calculate_tiles_for_point)

The center tile comes from mercantile.tile; the double loop then
walks dx and dy from -half to half (half = grid_size // 2) and keeps
only coordinates within the pyramid at that zoom. -/

/-- BaseDownloader.generate_tile_url for the template
base_url&x=..&y=..&z=... -/
def generate_tile_url (baseUrl : String) (x y z : ℤ) : String :=
  baseUrl ++ "&x=" ++ toString x ++ "&y=" ++ toString y ++ "&z=" ++ toString z

/-- BaseDownloader.generate_tile_path: tile_{z}_{x}_{y}.png inside
the tile directory. -/
def generate_tile_path (tileDir : String) (x y z : ℤ) : String :=
  tileDir ++ "/tile_" ++ toString z ++ "_" ++ toString x ++ "_" ++ toString y ++ ".png"

/-- BaseDownloader.create_tile_info. -/
def create_tile_info (baseUrl tileDir : String) (x y z : ℤ) : TileInfo :=
  { x := x, y := y, z := z
    url := generate_tile_url baseUrl x y z
    file_path := generate_tile_path tileDir x y z }

/-- Integer range a, a+1, ..., b-1, as Python range(a, b). -/
def intRange (a b : ℤ) : List ℤ :=
  (List.range (b - a).toNat).map (fun (i : ℕ) => a + (i : ℤ))

/-- The loop of calculate_tiles_for_point around a given center tile:
dx and dy run from -half to half and a TileInfo is appended only when
0 ≤ x < 2 ^ zoom and 0 ≤ y < 2 ^ zoom. -/
def tileWindow (baseUrl tileDir : String) (center : ℤ × ℤ) (zoom gridSize : ℕ) :
    List TileInfo :=
  let half : ℕ := gridSize / 2
  (intRange (-(half : ℤ)) ((half : ℤ) + 1)).flatMap (fun dx =>
    (intRange (-(half : ℤ)) ((half : ℤ) + 1)).filterMap (fun dy =>
      let x := center.1 + dx
      let y := center.2 + dy
      let maxCoord : ℤ := 2 ^ zoom
      if 0 ≤ x ∧ x < maxCoord ∧ 0 ≤ y ∧ y < maxCoord then
        some (create_tile_info baseUrl tileDir x y zoom)
      else none))

/-- The epsilon used by mercantile.tile against the loss of precision
at tile boundaries. -/
noncomputable def mercantileEpsilon : ℝ :=
  1 / 10 ^ 14

/-- mercantile.tile: normalized Web Mercator fractions, clamped to the
pyramid, with the epsilon shift before flooring (mercantile/__init__.py
of the mercantile package). -/
noncomputable def mercantileTile (lon lat : ℝ) (zoom : ℕ) : ℤ × ℤ :=
  let x : ℝ := lon / 360 + 1 / 2
  let sinlat : ℝ := Real.sin (lat * Real.pi / 180)
  let y : ℝ := 1 / 2 - 1 / 4 * Real.log ((1 + sinlat) / (1 - sinlat)) / Real.pi
  let z2 : ℝ := (2 : ℝ) ^ zoom
  let xtile : ℤ := if x ≤ 0 then 0 else if 1 ≤ x then 2 ^ zoom - 1 else ⌊(x + mercantileEpsilon) * z2⌋
  let ytile : ℤ := if y ≤ 0 then 0 else if 1 ≤ y then 2 ^ zoom - 1 else ⌊(y + mercantileEpsilon) * z2⌋
  (xtile, ytile)

/-- BaseDownloader.calculate_tiles_for_point: center tile from
mercantile.tile, then the bounded window loop. -/
noncomputable def calculate_tiles_for_point (baseUrl tileDir : String) (lon lat : ℝ)
    (zoom gridSize : ℕ) : List TileInfo :=
  tileWindow baseUrl tileDir (mercantileTile lon lat zoom) zoom gridSize

/-- Bounds check of a produced TileInfo against a zoom level, the
property validate_tile_coordinates decides for z within range. -/
def tileInBounds (zoom : ℕ) (t : TileInfo) : Bool :=
  decide (0 ≤ t.x ∧ t.x < 2 ^ zoom ∧ 0 ≤ t.y ∧ t.y < 2 ^ zoom)

/-- The full centered window: exactly gridSize rows of gridSize
coordinates around the center (the shape the claim predicts when no
cell is clipped). -/
def fullWindow (baseUrl tileDir : String) (center : ℤ × ℤ) (zoom gridSize : ℕ) :
    List TileInfo :=
  let half : ℕ := gridSize / 2
  (List.range gridSize).flatMap (fun (i : ℕ) =>
    (List.range gridSize).map (fun (j : ℕ) =>
      create_tile_info baseUrl tileDir (center.1 - half + (i : ℤ)) (center.2 - half + (j : ℤ))
        zoom))

/-- The hypothesis that the whole gridSize by gridSize neighborhood of
the center lies inside the tile pyramid at the zoom level. -/
def windowInBounds (center : ℤ × ℤ) (zoom gridSize : ℕ) : Prop :=
  (gridSize / 2 : ℕ) ≤ center.1 ∧ center.1 + (gridSize / 2 : ℕ) < 2 ^ zoom ∧
  (gridSize / 2 : ℕ) ≤ center.2 ∧ center.2 + (gridSize / 2 : ℕ) < 2 ^ zoom

/-! ## Pipeline orchestrator
(src/processors/data_processor.py, class DataProcessor, and
src/processors/image_processor.py, class ImageProcessor)

DataProcessor._process_single_point computes the tile list via
self.downloader.calculate_tiles_around_point, downloads, counts the
successes, returns None when none succeeded and otherwise builds the
mosaic image and its metadata. Every exception inside the step is
caught and turned into None. Attribute lookup on the downloader is
modelled by a method table holding the methods the downloader classes
define; the lookup of a missing name is the AttributeError path. -/

/-- ImageMetadata of image_processor.py, restricted to the fields the
claims are about. -/
structure ImageMetadata where
  width : ℕ
  height : ℕ
  zoom_level : ℕ
  tile_size : ℕ
  grid_size : ℕ
  point_index : ℕ
  pixel : ℝ × ℝ
  bounds : ℝ × ℝ × ℝ × ℝ

/-- ImageProcessor._create_image_metadata: grid corner tiles through
the inverse projection and the pixel record of the point. -/
noncomputable def create_image_metadata (img : Image) (point : GeoPoint)
    (center : TileInfo) (gridSize zoom : ℕ) (pixel : ℝ × ℝ) : ImageMetadata :=
  let half : ℕ := gridSize / 2
  let topLeft := tile_to_geo (center.x - half) (center.y - half) zoom
  let bottomRight := tile_to_geo (center.x + half) (center.y + half) zoom
  { width := img.width
    height := img.height
    zoom_level := zoom
    tile_size := 256
    grid_size := gridSize
    point_index := point.index
    pixel := pixel
    bounds := (topLeft.1, bottomRight.2, bottomRight.1, topLeft.2) }

/-- ImageProcessor.process_point_image: center tile from _geo_to_tile,
merged mosaic from TileMerger.merge_tiles, pixel position from
_geo_to_pixel, metadata from _create_image_metadata. -/
noncomputable def process_point_image (placeholder : Image) (point : GeoPoint)
    (results : List (DownloadResult Image)) (zoom gridSize : ℕ) :
    Image × ImageMetadata :=
  let c := geo_to_tile point.longitude point.latitude zoom
  let center : TileInfo := { x := c.1, y := c.2, z := zoom, url := "", file_path := "" }
  let merged := merge_tiles placeholder results gridSize center
  let pixel := geo_to_pixel point center gridSize
  (merged, create_image_metadata merged point center gridSize zoom pixel)

/-- The tile-computation methods defined by BaseDownloader and its two
subclasses: only calculate_tiles_for_point exists
(src/downloaders/base.py line 169); no class of the repository defines
a method named calculate_tiles_around_point. -/
noncomputable def downloader_methods (baseUrl tileDir : String) :
    List (String × (ℝ → ℝ → ℕ → ℕ → List TileInfo)) :=
  [("calculate_tiles_for_point",
    fun lon lat zoom gridSize => calculate_tiles_for_point baseUrl tileDir lon lat zoom gridSize)]

/-- Python attribute lookup on the downloader: None is the
AttributeError case. -/
noncomputable def getattr_downloader (baseUrl tileDir : String) (name : String) :
    Option (ℝ → ℝ → ℕ → ℕ → List TileInfo) :=
  (downloader_methods baseUrl tileDir).find? (fun e => e.1 = name) |>.map (fun e => e.2)

/-- DataProcessor._process_single_point with the downloads supplied by
an oracle dl from the computed tile list: the call
self.downloader.calculate_tiles_around_point(...) raises
AttributeError when the name is absent, the surrounding except block
returns None; otherwise the successes are counted, None is returned
when none succeeded, and the mosaic metadata is produced otherwise. -/
noncomputable def process_single_point (baseUrl tileDir : String) (placeholder : Image)
    (zoom gridSize : ℕ) (point : GeoPoint)
    (dl : List TileInfo → List (DownloadResult Image)) : Option ImageMetadata :=
  match getattr_downloader baseUrl tileDir "calculate_tiles_around_point" with
  | none => none
  | some calcTiles =>
    let tiles := calcTiles point.longitude point.latitude zoom gridSize
    let results := dl tiles
    let successfulDownloads := (results.filter (fun r => r.success)).length
    if successfulDownloads = 0 then none
    else some (process_point_image placeholder point results zoom gridSize).2

/-- DataProcessor._process_points: iterate over the points with their
index, count a point with metadata as successful and a point without
as failed, and always continue with the next point. Returns the
metadata list and the pair (successful_points, failed_points). -/
noncomputable def process_points (baseUrl tileDir : String) (placeholder : Image)
    (zoom gridSize : ℕ) (dl : ℕ → List TileInfo → List (DownloadResult Image)) :
    List GeoPoint → ℕ → List ImageMetadata × ℕ × ℕ
  | [], _ => ([], 0, 0)
  | p :: ps, i =>
    let md := process_single_point baseUrl tileDir placeholder zoom gridSize p (dl i)
    let rest := process_points baseUrl tileDir placeholder zoom gridSize dl ps (i + 1)
    match md with
    | some m => (m :: rest.1, rest.2.1 + 1, rest.2.2)
    | none => (rest.1, rest.2.1, rest.2.2 + 1)

theorem normalizeTile_width (img : Image) : (normalizeTile img).width = tileSize := by
  rw [normalizeTile]
  split
  · next h => exact h.1
  · rfl

theorem normalizeTile_height (img : Image) : (normalizeTile img).height = tileSize := by
  rw [normalizeTile]
  split
  · next h => exact h.2
  · rfl

/-- The content a cell of the merge loop paints: the normalized tile
image when the dict holds the coordinate, else the placeholder. -/
def cellContent (tileMap : ℤ × ℤ → Option Image) (placeholder : Image) (startX startY : ℤ)
    (cell : ℕ × ℕ) (dx dy : ℕ) : Color :=
  match tileMap (startX + cell.1, startY + cell.2) with
  | some timg => (normalizeTile timg).pix dx dy
  | none => placeholder.pix dx dy

theorem pasteCell_width (tileMap : ℤ × ℤ → Option Image) (placeholder : Image)
    (startX startY : ℤ) (canvas : Image) (cell : ℕ × ℕ) :
    (pasteCell tileMap placeholder startX startY canvas cell).width = canvas.width := by
  rw [pasteCell]
  cases tileMap (startX + cell.1, startY + cell.2) <;> rfl

theorem pasteCell_height (tileMap : ℤ × ℤ → Option Image) (placeholder : Image)
    (startX startY : ℤ) (canvas : Image) (cell : ℕ × ℕ) :
    (pasteCell tileMap placeholder startX startY canvas cell).height = canvas.height := by
  rw [pasteCell]
  cases tileMap (startX + cell.1, startY + cell.2) <;> rfl

/-- Pixel value after pasting one cell: the block of that cell takes
the cell content, everything else keeps the canvas value. -/
theorem pasteCell_pix (tileMap : ℤ × ℤ → Option Image) (placeholder : Image)
    (startX startY : ℤ) (canvas : Image) (cell : ℕ × ℕ) (qx qy : ℕ)
    (hpw : placeholder.width = tileSize) (hph : placeholder.height = tileSize) :
    (pasteCell tileMap placeholder startX startY canvas cell).pix qx qy =
      if qx / tileSize = cell.1 ∧ qy / tileSize = cell.2 ∧
          qx < canvas.width ∧ qy < canvas.height
      then cellContent tileMap placeholder startX startY cell (qx % tileSize) (qy % tileSize)
      else canvas.pix qx qy := by
  have h256 : tileSize = 256 := rfl
  by_cases hcov : qx / tileSize = cell.1 ∧ qy / tileSize = cell.2 ∧
      qx < canvas.width ∧ qy < canvas.height
  · rw [if_pos hcov]
    obtain ⟨h1, h2, h3, h4⟩ := hcov
    have hx1 : cell.1 * tileSize ≤ qx := by rw [h256] at h1 ⊢; omega
    have hx2 : qx < cell.1 * tileSize + tileSize := by rw [h256] at h1 ⊢; omega
    have hy1 : cell.2 * tileSize ≤ qy := by rw [h256] at h2 ⊢; omega
    have hy2 : qy < cell.2 * tileSize + tileSize := by rw [h256] at h2 ⊢; omega
    have hqx : qx - cell.1 * tileSize = qx % tileSize := by rw [h256] at h1 ⊢; omega
    have hqy : qy - cell.2 * tileSize = qy % tileSize := by rw [h256] at h2 ⊢; omega
    rw [pasteCell, cellContent]
    cases hmap : tileMap (startX + cell.1, startY + cell.2) with
    | some timg =>
      have hw := normalizeTile_width timg
      have hh := normalizeTile_height timg
      show (if cell.1 * tileSize ≤ qx ∧ qx < cell.1 * tileSize + (normalizeTile timg).width ∧
          cell.2 * tileSize ≤ qy ∧ qy < cell.2 * tileSize + (normalizeTile timg).height ∧
          qx < canvas.width ∧ qy < canvas.height
        then (normalizeTile timg).pix (qx - cell.1 * tileSize) (qy - cell.2 * tileSize)
        else canvas.pix qx qy) = (normalizeTile timg).pix (qx % tileSize) (qy % tileSize)
      rw [if_pos (by rw [hw, hh]; exact ⟨hx1, hx2, hy1, hy2, h3, h4⟩), hqx, hqy]
    | none =>
      show (if cell.1 * tileSize ≤ qx ∧ qx < cell.1 * tileSize + placeholder.width ∧
          cell.2 * tileSize ≤ qy ∧ qy < cell.2 * tileSize + placeholder.height ∧
          qx < canvas.width ∧ qy < canvas.height
        then placeholder.pix (qx - cell.1 * tileSize) (qy - cell.2 * tileSize)
        else canvas.pix qx qy) = placeholder.pix (qx % tileSize) (qy % tileSize)
      rw [if_pos (by rw [hpw, hph]; exact ⟨hx1, hx2, hy1, hy2, h3, h4⟩), hqx, hqy]
  · rw [if_neg hcov]
    rw [pasteCell]
    cases hmap : tileMap (startX + cell.1, startY + cell.2) with
    | some timg =>
      have hw := normalizeTile_width timg
      have hh := normalizeTile_height timg
      show (if cell.1 * tileSize ≤ qx ∧ qx < cell.1 * tileSize + (normalizeTile timg).width ∧
          cell.2 * tileSize ≤ qy ∧ qy < cell.2 * tileSize + (normalizeTile timg).height ∧
          qx < canvas.width ∧ qy < canvas.height
        then (normalizeTile timg).pix (qx - cell.1 * tileSize) (qy - cell.2 * tileSize)
        else canvas.pix qx qy) = canvas.pix qx qy
      rw [if_neg]
      intro hcond
      rw [hw] at hcond
      rw [hh] at hcond
      refine hcov ⟨?_, ?_, hcond.2.2.2.2.1, hcond.2.2.2.2.2⟩
      · rw [h256] at hcond ⊢
        omega
      · rw [h256] at hcond ⊢
        omega
    | none =>
      show (if cell.1 * tileSize ≤ qx ∧ qx < cell.1 * tileSize + placeholder.width ∧
          cell.2 * tileSize ≤ qy ∧ qy < cell.2 * tileSize + placeholder.height ∧
          qx < canvas.width ∧ qy < canvas.height
        then placeholder.pix (qx - cell.1 * tileSize) (qy - cell.2 * tileSize)
        else canvas.pix qx qy) = canvas.pix qx qy
      rw [if_neg]
      intro hcond
      rw [hpw] at hcond
      rw [hph] at hcond
      refine hcov ⟨?_, ?_, hcond.2.2.2.2.1, hcond.2.2.2.2.2⟩
      · rw [h256] at hcond ⊢
        omega
      · rw [h256] at hcond ⊢
        omega

theorem mergeFold_width (tileMap : ℤ × ℤ → Option Image) (placeholder : Image)
    (startX startY : ℤ) (cells : List (ℕ × ℕ)) (canvas : Image) :
    (cells.foldl (pasteCell tileMap placeholder startX startY) canvas).width = canvas.width := by
  induction cells generalizing canvas with
  | nil => rfl
  | cons c cs ih =>
    rw [List.foldl_cons, ih, pasteCell_width]

theorem mergeFold_height (tileMap : ℤ × ℤ → Option Image) (placeholder : Image)
    (startX startY : ℤ) (cells : List (ℕ × ℕ)) (canvas : Image) :
    (cells.foldl (pasteCell tileMap placeholder startX startY) canvas).height = canvas.height := by
  induction cells generalizing canvas with
  | nil => rfl
  | cons c cs ih =>
    rw [List.foldl_cons, ih, pasteCell_height]

/-- Pixel value after the whole merge loop: the pixel belongs to
exactly one cell block (its coordinates divided by the tile size); if
that cell was painted the pixel holds its content, else the canvas
value survives. -/
theorem mergeFold_pix (tileMap : ℤ × ℤ → Option Image) (placeholder : Image)
    (startX startY : ℤ) (cells : List (ℕ × ℕ)) (canvas : Image) (qx qy : ℕ)
    (hpw : placeholder.width = tileSize) (hph : placeholder.height = tileSize) :
    (cells.foldl (pasteCell tileMap placeholder startX startY) canvas).pix qx qy =
      if (qx / tileSize, qy / tileSize) ∈ cells ∧ qx < canvas.width ∧ qy < canvas.height
      then cellContent tileMap placeholder startX startY (qx / tileSize, qy / tileSize)
        (qx % tileSize) (qy % tileSize)
      else canvas.pix qx qy := by
  induction cells generalizing canvas with
  | nil => simp
  | cons c cs ih =>
    rw [List.foldl_cons]
    rw [ih (pasteCell tileMap placeholder startX startY canvas c)]
    rw [pasteCell_width, pasteCell_height]
    rw [pasteCell_pix tileMap placeholder startX startY canvas c qx qy hpw hph]
    by_cases hin : (qx / tileSize, qy / tileSize) ∈ cs
    · by_cases hb : qx < canvas.width ∧ qy < canvas.height
      · simp [hin, hb]
      · have hnb : ¬ ((qx / tileSize, qy / tileSize) ∈ cs ∧ qx < canvas.width ∧ qy < canvas.height) := by
          intro h
          exact hb ⟨h.2.1, h.2.2⟩
        have hnb2 : ¬ (qx / tileSize = c.1 ∧ qy / tileSize = c.2 ∧ qx < canvas.width ∧ qy < canvas.height) := by
          intro h
          exact hb ⟨h.2.2.1, h.2.2.2⟩
        have hnb3 : ¬ ((qx / tileSize, qy / tileSize) ∈ c :: cs ∧ qx < canvas.width ∧ qy < canvas.height) := by
          intro h
          exact hb ⟨h.2.1, h.2.2⟩
        rw [if_neg hnb, if_neg hnb2, if_neg hnb3]
    · by_cases hc : qx / tileSize = c.1 ∧ qy / tileSize = c.2
      · have hcell : (qx / tileSize, qy / tileSize) = c := by
          rw [hc.1, hc.2]
        by_cases hb : qx < canvas.width ∧ qy < canvas.height
        · have hmem : (qx / tileSize, qy / tileSize) ∈ c :: cs := by
            rw [hcell]
            exact List.mem_cons_self c cs
          rw [if_neg (by intro h; exact hin h.1), if_pos ⟨hc.1, hc.2, hb.1, hb.2⟩,
            if_pos ⟨hmem, hb.1, hb.2⟩, hcell]
        · have hnb : ¬ ((qx / tileSize, qy / tileSize) ∈ cs ∧ qx < canvas.width ∧ qy < canvas.height) := by
            intro h
            exact hb ⟨h.2.1, h.2.2⟩
          have hnb2 : ¬ (qx / tileSize = c.1 ∧ qy / tileSize = c.2 ∧ qx < canvas.width ∧ qy < canvas.height) := by
            intro h
            exact hb ⟨h.2.2.1, h.2.2.2⟩
          have hnb3 : ¬ ((qx / tileSize, qy / tileSize) ∈ c :: cs ∧ qx < canvas.width ∧ qy < canvas.height) := by
            intro h
            exact hb ⟨h.2.1, h.2.2⟩
          rw [if_neg hnb, if_neg hnb2, if_neg hnb3]
      · have hnm : (qx / tileSize, qy / tileSize) ∉ (c :: cs) := by
          intro h
          rcases List.mem_cons.mp h with h1 | h1
          · exact hc ⟨congrArg Prod.fst h1, congrArg Prod.snd h1⟩
          · exact hin h1
        have hnb2 : ¬ (qx / tileSize = c.1 ∧ qy / tileSize = c.2 ∧ qx < canvas.width ∧ qy < canvas.height) := by
          intro h
          exact hc ⟨h.1, h.2.1⟩
        rw [if_neg (by intro h; exact hin h.1), if_neg hnb2, if_neg (by intro h; exact hnm h.1)]

theorem mem_mergeCells (gridSize : ℕ) (cell : ℕ × ℕ) :
    cell ∈ mergeCells gridSize ↔ cell.1 < gridSize ∧ cell.2 < gridSize := by
  cases cell with
  | mk a b =>
    simp [mergeCells, List.mem_flatMap, List.mem_map, List.mem_range]
    constructor
    · rintro ⟨gy, hgy, gx, hgx, rfl, rfl⟩
      exact ⟨hgx, hgy⟩
    · rintro ⟨ha, hb⟩
      exact ⟨b, hb, a, ha, rfl, rfl⟩

/-- The filter applied while the tile dict is built: successful
results that carry an image. -/
def okResult (r : DownloadResult Image) : Bool :=
  r.success && r.image.isSome

/-- The dict key of a download result. -/
def keyOf (r : DownloadResult Image) : ℤ × ℤ :=
  (r.tile_info.x, r.tile_info.y)

theorem find?_append_eq {γ : Type} (l₁ l₂ : List γ) (p : γ → Bool) :
    (l₁ ++ l₂).find? p =
      match l₁.find? p with
      | some a => some a
      | none => l₂.find? p := by
  rw [List.find?_append]
  cases l₁.find? p <;> rfl

theorem find?_eq_head?_filter {γ : Type} (l : List γ) (p : γ → Bool) :
    l.find? p = (l.filter p).head? := by
  induction l with
  | nil => simp
  | cons a t ih =>
    rw [List.find?_cons, List.filter_cons]
    cases h : p a with
    | true => simp
    | false =>
      rw [if_neg (by simp)]
      exact ih

/-- The tile dict as a function of the result list: the value at a key
is the image of the last successful result with that key (a Python
dict keeps the last write). -/
theorem buildTileMap_eq_find (results : List (DownloadResult Image)) (k : ℤ × ℤ) :
    buildTileMap results k =
      match (results.filter okResult).reverse.find? (fun r => decide (keyOf r = k)) with
      | some r => r.image
      | none => none := by
  suffices h : ∀ (m0 : ℤ × ℤ → Option Image),
      (results.foldl
        (fun m r =>
          if r.success && r.image.isSome then
            fun k2 => if k2 = (r.tile_info.x, r.tile_info.y) then r.image else m k2
          else m)
        m0) k =
      match (results.filter okResult).reverse.find? (fun r => decide (keyOf r = k)) with
      | some r => r.image
      | none => m0 k by
    exact h (fun _ => none)
  induction results with
  | nil => intro m0; simp
  | cons r t ih =>
    intro m0
    rw [List.foldl_cons]
    by_cases hok : (r.success && r.image.isSome) = true
    · rw [if_pos hok]
      rw [ih]
      have hfil : (r :: t).filter okResult = r :: t.filter okResult := by
        simp [List.filter_cons, okResult, hok]
      rw [hfil]
      rw [List.reverse_cons, find?_append_eq]
      cases hfind : (t.filter okResult).reverse.find? (fun r2 => decide (keyOf r2 = k)) with
      | some a => rfl
      | none =>
        by_cases hkey : keyOf r = k
        · have : k = (r.tile_info.x, r.tile_info.y) := hkey.symm
          simp [List.find?, hkey, this]
        · have : ¬ (k = (r.tile_info.x, r.tile_info.y)) := fun h2 => hkey h2.symm
          simp [List.find?, hkey, this]
    · rw [if_neg hok]
      rw [ih]
      have hfil : (r :: t).filter okResult = t.filter okResult := by
        simp only [List.filter_cons, okResult]
        rw [if_neg (by simpa using hok)]
      rw [hfil]

theorem nodup_all_eq_length_le_one {γ : Type} (xs : List γ) (k : γ)
    (hnd : xs.Nodup) (hall : ∀ a ∈ xs, a = k) : xs.length ≤ 1 := by
  cases xs with
  | nil => simp
  | cons a t =>
    cases t with
    | nil => simp
    | cons b u =>
      have ha : a = k := hall a (by simp)
      have hb : b = k := hall b (by simp)
      have : a ≠ b := by
        have := List.nodup_cons.mp hnd
        exact fun hab => this.1 (hab ▸ List.mem_cons_self b u)
      exact absurd (ha.trans hb.symm) this

theorem perm_eq_of_length_le_one {γ : Type} (xs ys : List γ) (hperm : xs.Perm ys)
    (hlen : xs.length ≤ 1) : xs = ys := by
  cases xs with
  | nil => exact List.Perm.nil_eq hperm
  | cons a t =>
    cases t with
    | nil => exact (List.perm_singleton.mp hperm.symm).symm
    | cons b u => simp at hlen

/-- Building the tile dict from a permutation of a result list whose
successful entries have pairwise-distinct keys gives the same dict. -/
theorem buildTileMap_perm (results results2 : List (DownloadResult Image))
    (hperm : results.Perm results2)
    (hnd : ((results.filter (fun r => r.success)).map keyOf).Nodup) :
    buildTileMap results = buildTileMap results2 := by
  funext k
  rw [buildTileMap_eq_find, buildTileMap_eq_find]
  have hsub : List.Sublist (results.filter okResult) (results.filter (fun r => r.success)) := by
    have h1 : results.filter okResult =
        (results.filter (fun r => r.success)).filter (fun r => r.image.isSome) := by
      rw [List.filter_filter]
      apply List.filter_congr
      intro r hr
      simp [okResult, Bool.and_comm]
    rw [h1]
    exact List.filter_sublist _
  have hndok : ((results.filter okResult).map keyOf).Nodup :=
    List.Nodup.sublist (List.Sublist.map keyOf hsub) hnd
  have hfp : (results.filter okResult).Perm (results2.filter okResult) := hperm.filter _
  have hkey : (results.filter okResult).reverse.find? (fun r => decide (keyOf r = k)) =
      (results2.filter okResult).reverse.find? (fun r => decide (keyOf r = k)) := by
    rw [find?_eq_head?_filter, find?_eq_head?_filter]
    rw [List.filter_reverse, List.filter_reverse]
    have hs : (results.filter okResult).filter (fun r => decide (keyOf r = k)) =
        (results2.filter okResult).filter (fun r => decide (keyOf r = k)) := by
      apply perm_eq_of_length_le_one _ _ (hfp.filter _)
      have hsub2 : List.Sublist ((results.filter okResult).filter
          (fun r => decide (keyOf r = k))) (results.filter okResult) := List.filter_sublist _
      have hnd2 : (((results.filter okResult).filter
          (fun r => decide (keyOf r = k))).map keyOf).Nodup :=
        List.Nodup.sublist (List.Sublist.map keyOf hsub2) hndok
      have hall : ∀ a ∈ ((results.filter okResult).filter
          (fun r => decide (keyOf r = k))).map keyOf, a = k := by
        intro a ha
        rcases List.mem_map.mp ha with ⟨r, hr, rfl⟩
        have := (List.mem_filter.mp hr).2
        simpa using this
      have hlen := nodup_all_eq_length_le_one _ k hnd2 hall
      simpa using hlen
    rw [hs]
  rw [hkey]

theorem mem_intRange (a b x : ℤ) : x ∈ intRange a b ↔ a ≤ x ∧ x < b := by
  simp only [intRange, List.mem_map, List.mem_range]
  constructor
  · rintro ⟨i, hi, rfl⟩
    omega
  · rintro ⟨h1, h2⟩
    exact ⟨(x - a).toNat, by omega, by omega⟩

theorem filterMap_if_all {γ δ : Type} (l : List γ) (p : γ → Prop) [DecidablePred p]
    (f : γ → δ) (hall : ∀ a ∈ l, p a) :
    (l.filterMap (fun a => if p a then some (f a) else none)) = l.map f := by
  induction l with
  | nil => rfl
  | cons a t ih =>
    rw [List.filterMap_cons, if_pos (hall a (List.mem_cons_self a t)), List.map_cons]
    rw [ih (fun b hb => hall b (List.mem_cons_of_mem a hb))]

/-- Every TileInfo produced by the window loop passed the bounds
check. -/
theorem tileWindow_all_inBounds (baseUrl tileDir : String) (center : ℤ × ℤ)
    (zoom gridSize : ℕ) :
    (tileWindow baseUrl tileDir center zoom gridSize).all (tileInBounds zoom) = true := by
  rw [List.all_eq_true]
  intro t ht
  simp only [tileWindow, List.mem_flatMap, List.mem_filterMap] at ht
  obtain ⟨dx, hdx, dy, hdy, hif⟩ := ht
  split at hif
  · next hcond =>
    cases hif
    simp only [tileInBounds, create_tile_info]
    exact decide_eq_true hcond
  · exact absurd hif (by simp)

theorem flatMap_map_eq {γ δ ε : Type} (l : List γ) (g : γ → δ) (f : δ → List ε) :
    (l.map g).flatMap f = l.flatMap (fun a => f (g a)) := by
  induction l with
  | nil => rfl
  | cons a t ih => simp [ih]

theorem filterMap_map_eq {γ δ ε : Type} (l : List γ) (g : γ → δ) (f : δ → Option ε) :
    (l.map g).filterMap f = l.filterMap (fun a => f (g a)) := by
  induction l with
  | nil => rfl
  | cons a t ih =>
    rw [List.map_cons, List.filterMap_cons, List.filterMap_cons, ih]

theorem flatMap_congr_mem {γ ε : Type} (l : List γ) (f g : γ → List ε)
    (h : ∀ a ∈ l, f a = g a) : l.flatMap f = l.flatMap g := by
  induction l with
  | nil => rfl
  | cons a t ih =>
    rw [List.flatMap_cons, List.flatMap_cons, h a (List.mem_cons_self a t),
      ih (fun b hb => h b (List.mem_cons_of_mem a hb))]

/-- Under the in-bounds hypothesis and for odd grid sizes the window
loop returns the full centered grid. -/
theorem tileWindow_eq_fullWindow (baseUrl tileDir : String) (center : ℤ × ℤ)
    (zoom gridSize : ℕ) (hodd : Odd gridSize)
    (hbounds : windowInBounds center zoom gridSize) :
    tileWindow baseUrl tileDir center zoom gridSize =
      fullWindow baseUrl tileDir center zoom gridSize := by
  obtain ⟨hb1, hb2, hb3, hb4⟩ := hbounds
  have hg : 2 * (gridSize / 2) + 1 = gridSize := by
    obtain ⟨m, hm⟩ := hodd
    omega
  have hrange : intRange (-((gridSize / 2 : ℕ) : ℤ)) (((gridSize / 2 : ℕ) : ℤ) + 1) =
      (List.range gridSize).map (fun (i : ℕ) => (i : ℤ) - ((gridSize / 2 : ℕ) : ℤ)) := by
    rw [intRange]
    have hlen : ((((gridSize / 2 : ℕ) : ℤ) + 1) - (-((gridSize / 2 : ℕ) : ℤ))).toNat =
        gridSize := by omega
    rw [hlen]
    apply List.map_congr_left
    intro i hi
    omega
  simp only [tileWindow, fullWindow]
  rw [hrange, flatMap_map_eq]
  apply flatMap_congr_mem
  intro i hi
  have hilt : i < gridSize := List.mem_range.mp hi
  rw [filterMap_map_eq]
  have hall : ∀ j ∈ List.range gridSize,
      (0 ≤ center.1 + ((i : ℤ) - ((gridSize / 2 : ℕ) : ℤ)) ∧
        center.1 + ((i : ℤ) - ((gridSize / 2 : ℕ) : ℤ)) < 2 ^ zoom ∧
        0 ≤ center.2 + ((j : ℤ) - ((gridSize / 2 : ℕ) : ℤ)) ∧
        center.2 + ((j : ℤ) - ((gridSize / 2 : ℕ) : ℤ)) < 2 ^ zoom) := by
    intro j hj
    have hjlt : j < gridSize := List.mem_range.mp hj
    refine ⟨by omega, by omega, by omega, by omega⟩
  rw [filterMap_if_all _ _ _ hall]
  apply List.map_congr_left
  intro j hj
  have h1 : center.1 + ((i : ℤ) - ((gridSize / 2 : ℕ) : ℤ)) =
      center.1 - ((gridSize / 2 : ℕ) : ℤ) + (i : ℤ) := by omega
  have h2 : center.2 + ((j : ℤ) - ((gridSize / 2 : ℕ) : ℤ)) =
      center.2 - ((gridSize / 2 : ℕ) : ℤ) + (j : ℤ) := by omega
  rw [h1, h2]

theorem fullWindow_length (baseUrl tileDir : String) (center : ℤ × ℤ)
    (zoom gridSize : ℕ) :
    (fullWindow baseUrl tileDir center zoom gridSize).length = gridSize * gridSize := by
  simp [fullWindow, List.length_flatMap, Function.comp_def, List.map_const,
    List.sum_replicate, smul_eq_mul]

theorem putAll_append {α : Type} (c : TileCache α) (l1 l2 : List TileKey) (vs : TileKey → α) :
    putAll c (l1 ++ l2) vs = putAll (putAll c l1 vs) l2 vs := by
  simp [putAll, List.foldl_append]

theorem putAll_singleton {α : Type} (c : TileCache α) (k : TileKey) (vs : TileKey → α) :
    putAll c [k] vs = c.put k (vs k) :=
  rfl

theorem map_fst_pairing {α : Type} (l : List TileKey) (vs : TileKey → α) :
    (l.map (fun k => (k, vs k))).map Prod.fst = l := by
  simp [Function.comp_def]

theorem containsKey_pairing {α : Type} (l : List TileKey) (vs : TileKey → α) (k : TileKey) :
    containsKey (l.map (fun k2 => (k2, vs k2))) k = true ↔ k ∈ l := by
  rw [containsKey_iff_mem_map_fst, map_fst_pairing]

/-- Accumulator version of the download_tiles batch property: the
results already collected keep their tiles and every new result
reports its tile; the loop never drops a tile. -/
theorem download_tiles_go {α : Type} (cfg : DlConfig)
    (attemptResult : TileInfo → ℕ → Except DlError (α × ℕ))
    (jitter inter : TileInfo → ℕ → ℚ) (tiles : List TileInfo) :
    ∀ (acc : List (DownloadResult α) × FetchState α),
      ((tiles.foldl
        (fun acc2 t =>
          let r := download_tile cfg t acc2.2 (attemptResult t) (jitter t) (inter t)
          (acc2.1 ++ [r.1], r.2.1)) acc).1.map (fun r => r.tile_info) =
        acc.1.map (fun r => r.tile_info) ++ tiles) ∧
      ((∀ r ∈ acc.1, (r.success || r.error.isSome) = true) →
        (tiles.foldl
          (fun acc2 t =>
            let r := download_tile cfg t acc2.2 (attemptResult t) (jitter t) (inter t)
            (acc2.1 ++ [r.1], r.2.1)) acc).1.all (fun r => (r.success || r.error.isSome)) = true) := by
  induction tiles with
  | nil =>
    intro acc
    refine ⟨by simp, ?_⟩
    intro hall
    rw [List.all_eq_true]
    intro r hr
    exact hall r hr
  | cons t ts ih =>
    intro acc
    have hshape := download_tile_shape cfg t acc.2 (attemptResult t) (jitter t) (inter t)
    have hstep := ih (acc.1 ++ [(download_tile cfg t acc.2 (attemptResult t) (jitter t) (inter t)).1],
      (download_tile cfg t acc.2 (attemptResult t) (jitter t) (inter t)).2.1)
    constructor
    · rw [List.foldl_cons]
      rw [hstep.1]
      simp [hshape.1]
    · intro hall
      rw [List.foldl_cons]
      apply hstep.2
      intro r hr
      rcases List.mem_append.mp hr with h | h
      · exact hall r h
      · have : r = (download_tile cfg t acc.2 (attemptResult t) (jitter t) (inter t)).1 := by
          simpa using h
        subst this
        rcases hshape.2 with h2 | h2 <;> simp [h2]

/-- Filling an empty cache of capacity N with N + 1 distinct keys:
the put of the last key evicts exactly the first key and keeps the
other N, in order. -/
theorem lru_eviction_scenario {α : Type} (k0 klast : TileKey) (kmid : List TileKey)
    (vs : TileKey → α) (hnd : (k0 :: (kmid ++ [klast])).Nodup) :
    (putAll (emptyCache α (kmid.length + 1)) (k0 :: (kmid ++ [klast])) vs).cache.map Prod.fst =
      kmid ++ [klast] ∧
    (putAll (emptyCache α (kmid.length + 1)) (k0 :: (kmid ++ [klast])) vs).accessOrder =
      kmid ++ [klast] ∧
    (putAll (emptyCache α (kmid.length + 1)) (k0 :: (kmid ++ [klast])) vs).cache.length =
      kmid.length + 1 := by
  have hsplit : k0 :: (kmid ++ [klast]) = (k0 :: kmid) ++ [klast] := by simp
  rw [hsplit, putAll_append]
  have hnd2 : ((k0 :: kmid) ++ [klast]).Nodup := by rw [← hsplit]; exact hnd
  have hndfront : (k0 :: kmid).Nodup := (List.nodup_append.mp hnd2).1
  have hfront := putAll_fresh (k0 :: kmid) (emptyCache α (kmid.length + 1)) vs hndfront
    (by intro k hk; rfl) (by simp [emptyCache])
  rw [hfront]
  have hklast : klast ∉ k0 :: kmid := by
    intro hmem
    have := (List.nodup_append.mp hnd2).2.2
    exact this hmem (by simp)
  have hc2 : containsKey ((k0, vs k0) :: kmid.map (fun k => (k, vs k))) klast = false := by
    cases hcb : containsKey ((k0, vs k0) :: kmid.map (fun k => (k, vs k))) klast with
    | false => rfl
    | true => exact absurd ((containsKey_pairing (k0 :: kmid) vs klast).mp hcb) hklast
  rw [putAll_singleton, TileCache.put]
  simp only [emptyCache, List.nil_append]
  rw [if_neg (by simp [hc2]), if_pos (by simp)]
  simp [List.map_cons, eraseKey, map_fst_pairing, Function.comp_def]

/-- Promotion scenario: fill a cache of capacity N = rest.length + 2
with the distinct keys a, b, rest, hit a via get, then put a fresh
key. The get returns the stored value and promotes a; the put evicts
b, the now least-recently-used key, while a stays cached. -/
theorem lru_promotion_scenario {α : Type} (a b knew : TileKey) (rest : List TileKey)
    (vs : TileKey → α) (v : α)
    (hnd : (a :: b :: (rest ++ [knew])).Nodup) :
    ((putAll (emptyCache α (rest.length + 2)) (a :: b :: rest) vs).get a).1 = some (vs a) ∧
    ((((putAll (emptyCache α (rest.length + 2)) (a :: b :: rest) vs).get a).2.put knew v).cache.map
      Prod.fst = a :: (rest ++ [knew])) ∧
    (((putAll (emptyCache α (rest.length + 2)) (a :: b :: rest) vs).get a).2.put knew v).accessOrder =
      rest ++ [a, knew] := by
  have hndfill : (a :: b :: rest).Nodup := by
    have h1 : (a :: b :: (rest ++ [knew])).Nodup := hnd
    rcases List.nodup_cons.mp h1 with ⟨ha, h2⟩
    rcases List.nodup_cons.mp h2 with ⟨hb, h3⟩
    refine List.nodup_cons.mpr ⟨?_, List.nodup_cons.mpr ⟨?_, (List.nodup_append.mp h3).1⟩⟩
    · intro hmem
      rcases List.mem_cons.mp hmem with h | h
      · exact ha (by simp [h])
      · exact ha (by simp [h])
    · intro hmem
      exact hb (by simp [hmem])
  have hknew : knew ∉ a :: b :: rest := by
    intro hmem
    rcases List.nodup_cons.mp hnd with ⟨ha, h2⟩
    rcases List.nodup_cons.mp h2 with ⟨hb, h3⟩
    rcases List.mem_cons.mp hmem with h | h
    · exact ha (by simp [← h])
    · rcases List.mem_cons.mp h with h4 | h4
      · exact hb (by simp [← h4])
      · exact (List.nodup_append.mp h3).2.2 h4 (by simp)
  have hab : a ≠ b := by
    rcases List.nodup_cons.mp hnd with ⟨ha, _⟩
    intro h
    exact ha (by simp [h])
  have hfill := putAll_fresh (a :: b :: rest) (emptyCache α (rest.length + 2)) vs hndfill
    (by intro k hk; rfl) (by simp [emptyCache])
  rw [hfill]
  simp only [emptyCache, List.nil_append]
  have hget : lookupKey ((a, vs a) :: (b, vs b) :: rest.map (fun k => (k, vs k))) a =
      some (vs a) := by
    simp [lookupKey]
  rw [TileCache.get]
  simp only [List.map_cons]
  rw [hget]
  refine ⟨rfl, ?_⟩
  rw [removeFirst_cons_self]
  have hcnew : containsKey ((a, vs a) :: (b, vs b) :: rest.map (fun k => (k, vs k))) knew
      = false := by
    cases hcb : containsKey ((a, vs a) :: (b, vs b) :: rest.map (fun k => (k, vs k))) knew with
    | false => rfl
    | true => exact absurd ((containsKey_pairing (a :: b :: rest) vs knew).mp hcb) hknew
  rw [TileCache.put]
  rw [if_neg (by simp [hcnew]), if_pos (by simp)]
  have herase : eraseKey ((a, vs a) :: (b, vs b) :: rest.map (fun k => (k, vs k))) b =
      (a, vs a) :: rest.map (fun k => (k, vs k)) := by
    simp [eraseKey, hab]
  constructor
  · simp [herase, Function.comp_def]
  · simp

theorem Image.new_width (w h : ℕ) (c : Color) : (Image.new w h c).width = w :=
  rfl

theorem Image.new_height (w h : ℕ) (c : Color) : (Image.new w h c).height = h :=
  rfl

/-- Unfolding of download_tile on a cache miss: validation, then the
retry loop. -/
theorem download_tile_miss {α : Type} (cfg : DlConfig) (t : TileInfo) (s : FetchState α)
    (att : ℕ → Except DlError (α × ℕ)) (jit inter : ℕ → ℚ) (s1 : FetchState α)
    (hl : load_cached_tile s t = (none, s1)) :
    download_tile cfg t s att jit inter =
      (if validate_tile_coordinates t.x t.y t.z = false then
        ({ tile_info := t, success := false, error := some DlError.invalidCoordinate }, s1,
          { networkAttempts := 0, waits := [], interDelays := [] })
      else download_retry_loop cfg t att jit inter s1 0 (cfg.maxRetries + 1)) := by
  rw [download_tile, hl]

/-! ## Concrete instances used by witnesses and counterexamples -/

/-- A download configuration with max_retries 2. -/
def cfgW : DlConfig :=
  { maxRetries := 2, backoffBase := 2, retryWaitLo := 6, retryWaitHi := 10
    intervalLo := 1 / 10, intervalHi := 3 / 10 }

/-- A tile with invalid coordinates: x = 5 at zoom 1 (bound 2). -/
def cxTile3 : TileInfo :=
  { x := 5, y := 0, z := 1, url := "", file_path := "" }

/-- A fetch state whose in-memory cache already holds the invalid
coordinate (5, 0, 1). -/
def cxState3 : FetchState ℕ :=
  { cache := { maxSize := 1000, cache := [((5, 0, 1), 7)], accessOrder := [(5, 0, 1)] }
    disk := [] }

/-- A valid tile at zoom 1. -/
def tileW : TileInfo :=
  { x := 1, y := 1, z := 1, url := "", file_path := "" }

/-- A fetch state with an empty cache and an empty disk store. -/
def emptyFetchState : FetchState ℕ :=
  { cache := emptyCache ℕ 1000, disk := [] }

/-- A center tile used by merger witnesses. -/
def centerW : TileInfo :=
  { x := 0, y := 0, z := 0, url := "", file_path := "" }

/-- A constant 256 by 256 image. -/
def imA : Image :=
  Image.new 256 256 (1, 2, 3)

/-- A successful download result at tile (0, 0). -/
def rA : DownloadResult Image :=
  { tile_info := { x := 0, y := 0, z := 2, url := "", file_path := "" }
    success := true, image := some imA }

/-- A successful download result at tile (1, 0). -/
def rB : DownloadResult Image :=
  { tile_info := { x := 1, y := 0, z := 2, url := "", file_path := "" }
    success := true, image := some imA }

/-! ## The claims -/

/-- C1. For every geographic point and center tile at zoom z, the
pixel position recorded for the point equals the fractional tile
coordinate of the point at zoom z (computed without flooring) minus
the top-left tile coordinate of the grid (center minus gridSize div
2), multiplied by the tile size 256, in both axes, with no
intermediate rounding before the final pixel value. -/
theorem claim_c1_pixel_placement :
    ∀ (point : GeoPoint) (center : TileInfo) (gridSize : ℕ),
      geo_to_pixel point center gridSize =
        (((geo_to_tile_float point.longitude point.latitude center.z).1 -
            ((center.x - ((gridSize / 2 : ℕ) : ℤ) : ℤ) : ℝ)) * 256,
         ((geo_to_tile_float point.longitude point.latitude center.z).2 -
            ((center.y - ((gridSize / 2 : ℕ) : ℤ) : ℤ) : ℝ)) * 256) :=
  fun _ _ _ => rfl

/-- C2. For every odd gridSize at least 1, every center tile and every
result list (empty or all-failed included), merge_tiles returns a
canvas of exactly gridSize * 256 pixels per side, and every grid cell
whose tile is absent from the successful results shows the placeholder
tile instead of failing. -/
theorem claim_c2_mosaic_canvas :
    ∀ (placeholder : Image) (results : List (DownloadResult Image)) (gridSize : ℕ)
      (center : TileInfo),
      Odd gridSize → 1 ≤ gridSize → placeholder.width = tileSize →
      placeholder.height = tileSize →
      (merge_tiles placeholder results gridSize center).width = gridSize * tileSize ∧
      (merge_tiles placeholder results gridSize center).height = gridSize * tileSize ∧
      (∀ gx gy dx dy : ℕ, gx < gridSize → gy < gridSize → dx < tileSize → dy < tileSize →
        buildTileMap results
          (center.x - ((gridSize / 2 : ℕ) : ℤ) + (gx : ℤ),
            center.y - ((gridSize / 2 : ℕ) : ℤ) + (gy : ℤ)) = none →
        (merge_tiles placeholder results gridSize center).pix
          (gx * tileSize + dx) (gy * tileSize + dy) = placeholder.pix dx dy) := by
  intro p results g center hodd hge hpw hph
  refine ⟨?_, ?_, ?_⟩
  · simp only [merge_tiles, mergeWithMap]
    rw [mergeFold_width]
    rfl
  · simp only [merge_tiles, mergeWithMap]
    rw [mergeFold_height]
    rfl
  · intro gx gy dx dy hgx hgy hdx hdy hmap
    have h256 : tileSize = 256 := rfl
    simp only [merge_tiles, mergeWithMap]
    rw [mergeFold_pix _ p _ _ _ _ _ _ hpw hph]
    rw [h256] at hdx hdy
    rw [h256]
    have hdivx : (gx * 256 + dx) / 256 = gx := by omega
    have hdivy : (gy * 256 + dy) / 256 = gy := by omega
    have hmodx : (gx * 256 + dx) % 256 = dx := by omega
    have hmody : (gy * 256 + dy) % 256 = dy := by omega
    rw [hdivx, hdivy, hmodx, hmody, Image.new_width, Image.new_height]
    rw [if_pos ⟨(mem_mergeCells g (gx, gy)).mpr ⟨hgx, hgy⟩, by omega, by omega⟩]
    simp only [cellContent]
    rw [hmap]

/-- Witness for C2 at gridSize 1 with no results: the canvas is
256 by 256 and the single missing cell shows the gray placeholder. -/
theorem claim_c2_mosaic_canvas_witness :
    (merge_tiles grayTile [] 1 centerW).width = 1 * tileSize ∧
    (merge_tiles grayTile [] 1 centerW).height = 1 * tileSize ∧
    (merge_tiles grayTile [] 1 centerW).pix 0 0 = grayTile.pix 0 0 := by
  have h := claim_c2_mosaic_canvas grayTile [] 1 centerW (by decide) (by decide) rfl rfl
  exact ⟨h.1, h.2.1, h.2.2 0 0 0 0 (by decide) (by decide) (by decide) (by decide) rfl⟩

/-- C3 counterexample. The claim says an invalid coordinate returns a
failure before any cache lookup; but download_tile checks the cache
first, so an invalid coordinate that is cached returns success with
from_cache true. -/
theorem claim_c3_counterexample :
    validate_tile_coordinates cxTile3.x cxTile3.y cxTile3.z = false ∧
    (download_tile cfgW cxTile3 cxState3 (fun _ => Except.error DlError.notFound)
      (fun _ => 0) (fun _ => 0)).1.success = true ∧
    (download_tile cfgW cxTile3 cxState3 (fun _ => Except.error DlError.notFound)
      (fun _ => 0) (fun _ => 0)).1.from_cache = true :=
  ⟨by decide, rfl, rfl⟩

/-- C3 as amended. download_tile consults the tile cache first; for an
uncached coordinate with invalid bounds it returns a failure
immediately after the cache miss, with no network attempt and no
retry. -/
theorem claim_c3_cache_before_validation :
    ∀ (α : Type) (cfg : DlConfig) (t : TileInfo) (s : FetchState α)
      (att : ℕ → Except DlError (α × ℕ)) (jit inter : ℕ → ℚ),
      (load_cached_tile s t).1 = none →
      validate_tile_coordinates t.x t.y t.z = false →
      (download_tile cfg t s att jit inter).1.success = false ∧
      (download_tile cfg t s att jit inter).1.error = some DlError.invalidCoordinate ∧
      (download_tile cfg t s att jit inter).2.2.networkAttempts = 0 ∧
      (download_tile cfg t s att jit inter).2.2.waits = [] := by
  intro α cfg t s att jit inter hmiss hval
  rcases hl : load_cached_tile s t with ⟨o, s1⟩
  rw [hl] at hmiss
  cases o with
  | some img => simp at hmiss
  | none =>
    rw [download_tile_miss cfg t s att jit inter s1 hl, if_pos hval]
    exact ⟨rfl, rfl, rfl, rfl⟩

/-- Witness for C3: the uncached invalid tile (5, 0, 1) fails with no
network attempt. -/
theorem claim_c3_cache_before_validation_witness :
    (download_tile cfgW cxTile3 emptyFetchState (fun _ => Except.error DlError.notFound)
      (fun _ => 0) (fun _ => 0)).1.success = false ∧
    (download_tile cfgW cxTile3 emptyFetchState (fun _ => Except.error DlError.notFound)
      (fun _ => 0) (fun _ => 0)).1.error = some DlError.invalidCoordinate ∧
    (download_tile cfgW cxTile3 emptyFetchState (fun _ => Except.error DlError.notFound)
      (fun _ => 0) (fun _ => 0)).2.2.networkAttempts = 0 ∧
    (download_tile cfgW cxTile3 emptyFetchState (fun _ => Except.error DlError.notFound)
      (fun _ => 0) (fun _ => 0)).2.2.waits = [] :=
  claim_c3_cache_before_validation ℕ cfgW cxTile3 emptyFetchState _ _ _ rfl (by decide)

/-- C4 counterexample. With capacity N = 1, a get that hits does move
its key to the most-recently-used position, yet that key is evicted by
the next capacity-exceeding put, because it is the only entry. -/
theorem claim_c4_counterexample :
    ((((emptyCache ℕ 1).put (0, 0, 0) 10).get (0, 0, 0)).1 = some 10) ∧
    containsKey ((((((emptyCache ℕ 1).put (0, 0, 0) 10).get (0, 0, 0)).2.put
      (1, 1, 1) 11)).cache) (0, 0, 0) = false := by
  decide

/-- C4 as amended. Putting N + 1 pairwise-distinct keys into an empty
cache of capacity N evicts exactly the least-recently-used first key
and keeps the other N; a get that hits promotes its key so that, when
the capacity is at least 2, the promoted key survives the next
capacity-exceeding put (with capacity 1 the promoted key is the only
entry and is evicted); and a reachable cache never holds more than N
entries for N at least 1. -/
theorem claim_c4_lru_behavior :
    ∀ (α : Type),
      (∀ (k0 klast : TileKey) (kmid : List TileKey) (vs : TileKey → α),
        (k0 :: (kmid ++ [klast])).Nodup →
        (putAll (emptyCache α (kmid.length + 1)) (k0 :: (kmid ++ [klast])) vs).cache.map
          Prod.fst = kmid ++ [klast] ∧
        (putAll (emptyCache α (kmid.length + 1)) (k0 :: (kmid ++ [klast])) vs).accessOrder =
          kmid ++ [klast] ∧
        (putAll (emptyCache α (kmid.length + 1)) (k0 :: (kmid ++ [klast])) vs).cache.length =
          kmid.length + 1) ∧
      (∀ (a b knew : TileKey) (rest : List TileKey) (vs : TileKey → α) (v : α),
        (a :: b :: (rest ++ [knew])).Nodup →
        ((putAll (emptyCache α (rest.length + 2)) (a :: b :: rest) vs).get a).1 =
          some (vs a) ∧
        ((((putAll (emptyCache α (rest.length + 2)) (a :: b :: rest) vs).get a).2.put
          knew v).cache.map Prod.fst = a :: (rest ++ [knew])) ∧
        (((putAll (emptyCache α (rest.length + 2)) (a :: b :: rest) vs).get a).2.put
          knew v).accessOrder = rest ++ [a, knew]) ∧
      (∀ (N : ℕ) (c : TileCache α), 1 ≤ N → CacheReachable α N c →
        c.cache.length ≤ N) := by
  intro α
  refine ⟨fun k0 klast kmid vs hnd => lru_eviction_scenario k0 klast kmid vs hnd,
    fun a b knew rest vs v hnd => lru_promotion_scenario a b knew rest vs v hnd,
    fun N c hN hr => ?_⟩
  have h := cacheReachable_wf N hN c hr
  have h1 := h.1.2.2.2.2
  have h2 := h.2
  omega

/-- Witness for C4 with three distinct keys, the promotion scenario at
capacity 2, and the empty cache of capacity 1. -/
theorem claim_c4_lru_behavior_witness :
    ((putAll (emptyCache ℕ 2) [(0, 0, 0), (1, 0, 0), (2, 0, 0)] (fun _ => 0)).cache.map
      Prod.fst = [(1, 0, 0), (2, 0, 0)] ∧
     (putAll (emptyCache ℕ 2) [(0, 0, 0), (1, 0, 0), (2, 0, 0)] (fun _ => 0)).accessOrder =
      [(1, 0, 0), (2, 0, 0)] ∧
     (putAll (emptyCache ℕ 2) [(0, 0, 0), (1, 0, 0), (2, 0, 0)] (fun _ => 0)).cache.length =
      2) ∧
    (((putAll (emptyCache ℕ 2) [(0, 0, 0), (1, 0, 0)] (fun _ => 5)).get (0, 0, 0)).1 =
      some 5 ∧
     ((((putAll (emptyCache ℕ 2) [(0, 0, 0), (1, 0, 0)] (fun _ => 5)).get
        (0, 0, 0)).2.put (2, 0, 0) 9).cache.map Prod.fst = [(0, 0, 0), (2, 0, 0)]) ∧
     (((putAll (emptyCache ℕ 2) [(0, 0, 0), (1, 0, 0)] (fun _ => 5)).get
        (0, 0, 0)).2.put (2, 0, 0) 9).accessOrder = [(0, 0, 0), (2, 0, 0)]) ∧
    (emptyCache ℕ 1).cache.length ≤ 1 :=
  ⟨(claim_c4_lru_behavior ℕ).1 (0, 0, 0) (2, 0, 0) [(1, 0, 0)] (fun _ => 0) (by decide),
   (claim_c4_lru_behavior ℕ).2.1 (0, 0, 0) (1, 0, 0) (2, 0, 0) [] (fun _ => 5) 9 (by decide),
   (claim_c4_lru_behavior ℕ).2.2 1 (emptyCache ℕ 1) (by decide) CacheReachable.base⟩

/-- C5 counterexample. With max_retries 2 and every attempt failing
with notFound, the returned failure carries the generic
retries-exhausted message, not the final notFound error (which is only
logged). -/
theorem claim_c5_counterexample :
    (download_tile cfgW tileW emptyFetchState (fun _ => Except.error DlError.notFound)
      (fun _ => 0) (fun _ => 0)).1.error = some (DlError.retriesExhausted 2) ∧
    (fun (_ : ℕ) => Except.error DlError.notFound :
      ℕ → Except DlError (ℕ × ℕ)) 2 = Except.error DlError.notFound ∧
    DlError.retriesExhausted 2 ≠ DlError.notFound :=
  ⟨rfl, rfl, by decide⟩

/-- C5 as amended. For a valid uncached coordinate, download_tile
makes at most maxRetries + 1 network attempts; when every attempt
fails it makes exactly maxRetries + 1 attempts, sleeps
backoffBase ^ attempt plus the drawn jitter after each failed attempt
except the last, and returns a failure carrying the generic
retries-exhausted error (not the final attempt error, which is only
logged). -/
theorem claim_c5_retry_backoff :
    ∀ (α : Type) (cfg : DlConfig) (t : TileInfo) (s : FetchState α)
      (att : ℕ → Except DlError (α × ℕ)) (jit inter : ℕ → ℚ),
      (load_cached_tile s t).1 = none →
      validate_tile_coordinates t.x t.y t.z = true →
      (download_tile cfg t s att jit inter).2.2.networkAttempts ≤ cfg.maxRetries + 1 ∧
      ((∀ i, i ≤ cfg.maxRetries → exceptFailed (att i) = true) →
        (download_tile cfg t s att jit inter).1.success = false ∧
        (download_tile cfg t s att jit inter).1.error =
          some (DlError.retriesExhausted cfg.maxRetries) ∧
        (download_tile cfg t s att jit inter).2.2.networkAttempts = cfg.maxRetries + 1 ∧
        (download_tile cfg t s att jit inter).2.2.waits =
          (List.range cfg.maxRetries).map (fun i => cfg.backoffBase ^ i + jit i)) := by
  intro α cfg t s att jit inter hmiss hval
  rcases hl : load_cached_tile s t with ⟨o, s1⟩
  rw [hl] at hmiss
  cases o with
  | some img => simp at hmiss
  | none =>
    rw [download_tile_miss cfg t s att jit inter s1 hl, if_neg (by simp [hval])]
    constructor
    · exact download_retry_loop_attempts_le cfg t att jit inter s1 0 (cfg.maxRetries + 1)
    · intro hfail
      have h := download_retry_loop_all_fail cfg t att jit inter s1 0 (cfg.maxRetries + 1)
        (by omega) hfail
      refine ⟨h.1, h.2.1, h.2.2.1, ?_⟩
      rw [h.2.2.2]
      simp

/-- Witness for C5: with max_retries 2 and a network that always
answers notFound, three attempts are made and the backoff waits follow
the formula. -/
theorem claim_c5_retry_backoff_witness :
    (download_tile cfgW tileW emptyFetchState (fun _ => Except.error DlError.notFound)
      (fun _ => 7) (fun _ => 0)).2.2.networkAttempts ≤ 2 + 1 ∧
    ((download_tile cfgW tileW emptyFetchState (fun _ => Except.error DlError.notFound)
        (fun _ => 7) (fun _ => 0)).1.success = false ∧
      (download_tile cfgW tileW emptyFetchState (fun _ => Except.error DlError.notFound)
        (fun _ => 7) (fun _ => 0)).1.error = some (DlError.retriesExhausted 2) ∧
      (download_tile cfgW tileW emptyFetchState (fun _ => Except.error DlError.notFound)
        (fun _ => 7) (fun _ => 0)).2.2.networkAttempts = 2 + 1 ∧
      (download_tile cfgW tileW emptyFetchState (fun _ => Except.error DlError.notFound)
        (fun _ => 7) (fun _ => 0)).2.2.waits =
        (List.range 2).map (fun i => (2 : ℚ) ^ i + 7)) := by
  have h := claim_c5_retry_backoff ℕ cfgW tileW emptyFetchState
    (fun _ => Except.error DlError.notFound) (fun _ => 7) (fun _ => 0) rfl (by decide)
  exact ⟨h.1, h.2 (fun i _ => rfl)⟩

/-- C6. The pipeline orchestrator never emits a mosaic for any point,
whatever the downloads would return: _process_single_point calls
self.downloader.calculate_tiles_around_point, a method no downloader
class defines (base.py defines calculate_tiles_for_point), so the
AttributeError is caught and every point is recorded as failed while
the run continues. This contradicts the claim that a mosaic is
produced whenever at least one tile download succeeds. -/
theorem claim_c6_pipeline_attribute_bug :
    ∀ (baseUrl tileDir : String) (placeholder : Image) (zoom gridSize : ℕ)
      (point : GeoPoint) (dl1 : List TileInfo → List (DownloadResult Image))
      (points : List GeoPoint) (dl : ℕ → List TileInfo → List (DownloadResult Image))
      (i : ℕ),
      process_single_point baseUrl tileDir placeholder zoom gridSize point dl1 = none ∧
      process_points baseUrl tileDir placeholder zoom gridSize dl points i =
        ([], 0, points.length) := by
  have hattr : ∀ (baseUrl tileDir : String),
      getattr_downloader baseUrl tileDir "calculate_tiles_around_point" = none := by
    intro b d
    simp [getattr_downloader, downloader_methods, List.find?]
  have hsp : ∀ (baseUrl tileDir : String) (placeholder : Image) (zoom gridSize : ℕ)
      (point : GeoPoint) (dl1 : List TileInfo → List (DownloadResult Image)),
      process_single_point baseUrl tileDir placeholder zoom gridSize point dl1 = none := by
    intro b d p z g pt dl1
    rw [process_single_point, hattr b d]
  intro baseUrl tileDir placeholder zoom gridSize point dl1 points dl i
  refine ⟨hsp baseUrl tileDir placeholder zoom gridSize point dl1, ?_⟩
  induction points generalizing i with
  | nil => rfl
  | cons pt ps ih =>
    rw [process_points, hsp baseUrl tileDir placeholder zoom gridSize pt (dl i), ih (i + 1)]
    rfl

/-- C7. Every download_tile call returns a DownloadResult for the
requested tile that is a success or carries an error value (exceptions
of the attempt layer never escape), and download_tiles returns one
such result per tile, in order, continuing after failures. -/
theorem claim_c7_no_exceptions :
    ∀ (α : Type) (cfg : DlConfig) (t : TileInfo) (s : FetchState α)
      (att : ℕ → Except DlError (α × ℕ)) (jit inter : ℕ → ℚ)
      (tiles : List TileInfo) (s0 : FetchState α)
      (attB : TileInfo → ℕ → Except DlError (α × ℕ)) (jitB interB : TileInfo → ℕ → ℚ),
      (download_tile cfg t s att jit inter).1.tile_info = t ∧
      ((download_tile cfg t s att jit inter).1.success ||
        (download_tile cfg t s att jit inter).1.error.isSome) = true ∧
      (download_tiles cfg tiles s0 attB jitB interB).1.map (fun r => r.tile_info) = tiles ∧
      (download_tiles cfg tiles s0 attB jitB interB).1.all
        (fun r => r.success || r.error.isSome) = true := by
  intro α cfg t s att jit inter tiles s0 attB jitB interB
  have h1 := download_tile_shape cfg t s att jit inter
  have h2 := download_tiles_go cfg attB jitB interB tiles ([], s0)
  refine ⟨h1.1, ?_, ?_, ?_⟩
  · rcases h1.2 with h | h <;> simp [h]
  · rw [download_tiles]
    simpa using h2.1
  · rw [download_tiles]
    exact h2.2 (fun r hr => absurd hr (by simp))

/-- C8. merge_tiles produces an identical canvas for every permutation
of a result list whose successful entries have pairwise-distinct
(x, y) keys: assembly is keyed by absolute tile coordinate, not by
completion order. -/
theorem claim_c8_order_independence :
    ∀ (placeholder : Image) (results results2 : List (DownloadResult Image))
      (gridSize : ℕ) (center : TileInfo),
      results.Perm results2 →
      ((results.filter (fun r => r.success)).map keyOf).Nodup →
      merge_tiles placeholder results gridSize center =
        merge_tiles placeholder results2 gridSize center := by
  intro p r1 r2 g c hperm hnd
  rw [merge_tiles, merge_tiles, buildTileMap_perm r1 r2 hperm hnd]

/-- Witness for C8: swapping two successful results with distinct keys
leaves the mosaic unchanged. -/
theorem claim_c8_order_independence_witness :
    merge_tiles grayTile [rA, rB] 2 centerW = merge_tiles grayTile [rB, rA] 2 centerW :=
  claim_c8_order_independence grayTile [rA, rB] [rB, rA] 2 centerW
    (List.Perm.swap rB rA []) (by decide)

/-- C9. Every coordinate produced by calculate_tiles_for_point (and by
its window loop around any center) lies within 0 ≤ x, y < 2 ^ zoom;
and for an odd gridSize whose full neighborhood lies inside the
pyramid, the loop returns exactly the gridSize * gridSize coordinates
of the window centered on the point tile. -/
theorem claim_c9_window_bounds :
    ∀ (baseUrl tileDir : String) (lon lat : ℝ) (zoom gridSize : ℕ) (center : ℤ × ℤ),
      (calculate_tiles_for_point baseUrl tileDir lon lat zoom gridSize).all
        (tileInBounds zoom) = true ∧
      (tileWindow baseUrl tileDir center zoom gridSize).all (tileInBounds zoom) = true ∧
      (Odd gridSize → windowInBounds center zoom gridSize →
        tileWindow baseUrl tileDir center zoom gridSize =
          fullWindow baseUrl tileDir center zoom gridSize ∧
        (tileWindow baseUrl tileDir center zoom gridSize).length = gridSize * gridSize) := by
  intro b d lon lat zoom g center
  refine ⟨tileWindow_all_inBounds b d (mercantileTile lon lat zoom) zoom g,
    tileWindow_all_inBounds b d center zoom g, ?_⟩
  intro hodd hbounds
  have heq := tileWindow_eq_fullWindow b d center zoom g hodd hbounds
  exact ⟨heq, by rw [heq, fullWindow_length]⟩

/-- Witness for C9 at zoom 2, gridSize 3, center (1, 1): all bounds
hold and exactly 9 coordinates are returned. -/
theorem claim_c9_window_bounds_witness :
    (calculate_tiles_for_point "" "" 0 0 2 3).all (tileInBounds 2) = true ∧
    (tileWindow "" "" (1, 1) 2 3).all (tileInBounds 2) = true ∧
    (tileWindow "" "" (1, 1) 2 3 = fullWindow "" "" (1, 1) 2 3 ∧
      (tileWindow "" "" (1, 1) 2 3).length = 3 * 3) := by
  have h := claim_c9_window_bounds "" "" 0 0 2 3 (1, 1)
  exact ⟨h.1, h.2.1, h.2.2 (by decide) ⟨by decide, by decide, by decide, by decide⟩⟩

/-- C10. A put of a key already present replaces its stored image,
promotes the key to the most-recently-used position, evicts nothing
even at capacity, and leaves the key list, the size and all other
entries unchanged. -/
theorem claim_c10_put_existing :
    ∀ (α : Type) (c : TileCache α) (k : TileKey) (v : α),
      containsKey c.cache k = true →
      lookupKey (c.put k v).cache k = some v ∧
      (c.put k v).cache.map Prod.fst = c.cache.map Prod.fst ∧
      (c.put k v).cache.length = c.cache.length ∧
      (c.put k v).accessOrder = removeFirst c.accessOrder k ++ [k] ∧
      (c.put k v).cache.filter (fun e => e.1 ≠ k) = c.cache.filter (fun e => e.1 ≠ k) := by
  intro α c k v hc
  rw [TileCache.put, if_pos hc]
  exact ⟨lookupKey_updateVal_self c.cache k v hc, map_fst_updateVal c.cache k v,
    length_updateVal c.cache k v, rfl, filter_updateVal c.cache k v⟩

/-- A full TileCache of capacity 2 holding keys (0, 0, 0) and
(1, 1, 1). -/
def cacheW10 : TileCache ℕ :=
  { maxSize := 2
    cache := [((0, 0, 0), 5), ((1, 1, 1), 6)]
    accessOrder := [(0, 0, 0), (1, 1, 1)] }

/-- Witness for C10: overwriting key (0, 0, 0) in a full cache of
capacity 2. -/
theorem claim_c10_put_existing_witness :
    lookupKey (cacheW10.put (0, 0, 0) 8).cache (0, 0, 0) = some 8 ∧
    (cacheW10.put (0, 0, 0) 8).cache.map Prod.fst = [(0, 0, 0), (1, 1, 1)] ∧
    (cacheW10.put (0, 0, 0) 8).cache.length = 2 ∧
    (cacheW10.put (0, 0, 0) 8).accessOrder = [(1, 1, 1), (0, 0, 0)] ∧
    (cacheW10.put (0, 0, 0) 8).cache.filter (fun e => e.1 ≠ (0, 0, 0)) =
      [((1, 1, 1), 6)] := by
  have h := claim_c10_put_existing ℕ cacheW10 (0, 0, 0) 8 (by decide)
  exact ⟨h.1, by rw [h.2.1]; decide, by rw [h.2.2.1]; decide, by rw [h.2.2.2.1]; decide,
    by rw [h.2.2.2.2]; decide⟩

end RS
